import Mathlib

/-!
Verification of the pygbm histogram-based split-finding engine and of the
`GradientBoostingMachine.fit` orchestration (`pygbm/gradient_boosting.py`).

The splitting module (`pygbm/splitting.py`) is exercised by the repository's
test suite but its source is not part of the analysed tree, so the definitions
in the `Pygbm` namespace below are modelled from the specification
(sections 3, 4.2, 4.3 and 4.4): histograms are per-bin
`(count, sum_gradients, sum_hessians)` triples, built either by direct
accumulation or by parent-minus-sibling subtraction; the split search scans
bins in increasing order accumulating a left prefix, rejects candidates that
violate the minimum-hessian / minimum-leaf-size constraints, scores the rest
with the regularized second-order gain, keeps the first maximum, and returns
a sentinel `SplitInfo` with gain `-1` when the best gain does not strictly
exceed `min_gain_to_split`.  Machine floats are modelled as exact rationals,
so the spec's numerical tolerances become exact equalities.
-/

namespace Pygbm

/-- Histogram entry for one bin: sample count, gradient sum and hessian sum.
Modelled from the spec: each histogram entry is a
`{count, sum_gradient, sum_hessian}` triple (spec section 3). -/
structure HistEntry where
  count : Nat
  sumGradients : ℚ
  sumHessians : ℚ
  deriving Repr, DecidableEq

/-- Hessian input: either one scalar shared by every sample
(constant-hessian mode) or one value per sample.  Modelled from the spec:
the constant-hessian length-1-array convention is carried as an explicit
tagged variant (spec sections 3 and 9). -/
inductive Hessians where
  | constant (value : ℚ)
  | perSample (values : List ℚ)
  deriving Repr, DecidableEq

/-- Splitting context.  Modelled from the spec: the fields mirror, in order,
the arguments of the `SplittingContext` constructor as invoked by the test
suite (binned matrix, bin count, per-feature bin counts, gradients, hessians,
L2 regularization, min hessian to split, min samples per leaf, min gain to
split, parallel-splitting flag).  The binned matrix is feature-major: one
column (list of bin indices) per feature. -/
structure SplittingContext where
  X_binned : List (List Nat)
  n_bins : Nat
  n_bins_per_feature : List Nat
  allGradients : List ℚ
  hessians : Hessians
  l2Regularization : ℚ
  minHessianToSplit : ℚ
  minSamplesLeaf : Nat
  minGainToSplit : ℚ
  parallelSplitting : Bool

/-- Bin index of sample `i` on feature `f`. -/
def binOf (ctx : SplittingContext) (f i : Nat) : Nat :=
  (ctx.X_binned.getD f []).getD i 0

/-- Gradient of sample `i`. -/
def gradOf (ctx : SplittingContext) (i : Nat) : ℚ :=
  ctx.allGradients.getD i 0

/-- Hessian value of sample `i` (the shared scalar in constant mode). -/
def hessOf (ctx : SplittingContext) (i : Nat) : ℚ :=
  match ctx.hessians with
  | Hessians.constant c => c
  | Hessians.perSample v => v.getD i 0

/-- Hessian contribution of sample `i` to a histogram.  Modelled from the
spec: under constant-hessian mode histograms skip tracking per-bin hessian
sums (stored as the `0` sentinel), so the contribution is `0`
(spec sections 3 and 4.2). -/
def histHessOf (ctx : SplittingContext) (i : Nat) : ℚ :=
  match ctx.hessians with
  | Hessians.constant _ => 0
  | Hessians.perSample v => v.getD i 0

/-- Increment the entry at bin `b` by `(1, g, h)`; out-of-range bins are a
no-op. -/
def histAdd : List HistEntry → Nat → ℚ → ℚ → List HistEntry
  | [], _, _, _ => []
  | e :: rest, 0, g, h =>
    ⟨e.count + 1, e.sumGradients + g, e.sumHessians + h⟩ :: rest
  | e :: rest, Nat.succ b, g, h => e :: histAdd rest b g h

/-- Direct-accumulation histogram of one feature over a node's sample
indices.  Modelled from the spec: for each sample in the node's range,
increment the triple at that sample's bin by `(1, gradient, hessian)`, the
hessian term being omitted under constant-hessian mode (spec section 4.2). -/
def buildHistogram (ctx : SplittingContext) (f : Nat) : List Nat → List HistEntry
  | [] => List.replicate ctx.n_bins ⟨0, 0, 0⟩
  | i :: rest =>
    histAdd (buildHistogram ctx f rest) (binOf ctx f i) (gradOf ctx i) (histHessOf ctx i)

/-- Bin-by-bin subtraction of two histograms.  Modelled from the spec: the
other child's histogram is obtained bin-by-bin as parent minus sibling
(spec section 4.2). -/
def histSub (p s : List HistEntry) : List HistEntry :=
  List.zipWith
    (fun a b => ⟨a.count - b.count, a.sumGradients - b.sumGradients, a.sumHessians - b.sumHessians⟩)
    p s

/-- Componentwise sum of a list of histogram entries. -/
def sumEntries : List HistEntry → HistEntry
  | [] => ⟨0, 0, 0⟩
  | e :: rest =>
    ⟨e.count + (sumEntries rest).count,
     e.sumGradients + (sumEntries rest).sumGradients,
     e.sumHessians + (sumEntries rest).sumHessians⟩

/-- Running left-side prefix of a histogram through candidate boundary bin
`b` (bins `0 .. b` inclusive).  Modelled from the spec's increasing-order
bin scan (spec section 4.3). -/
def prefixStats (hist : List HistEntry) (b : Nat) : HistEntry :=
  sumEntries (hist.take (b + 1))

/-- Node totals used by the split search: sample count, gradient sum, and
hessian sum, the latter derived analytically as `count * scalar` in
constant-hessian mode (spec section 3). -/
def nodeTotals (ctx : SplittingContext) (indices : List Nat) : HistEntry :=
  ⟨indices.length,
   (indices.map (gradOf ctx)).sum,
   match ctx.hessians with
   | Hessians.constant c => (indices.length : ℚ) * c
   | Hessians.perSample _ => (indices.map (hessOf ctx)).sum⟩

/-- Left-side hessian sum of a prefix: the tracked per-bin sum, or
`count * scalar` in constant-hessian mode (spec section 3). -/
def leftHess (ctx : SplittingContext) (pre : HistEntry) : ℚ :=
  match ctx.hessians with
  | Hessians.constant c => (pre.count : ℚ) * c
  | Hessians.perSample _ => pre.sumHessians

/-- Regularized second-order gain of a candidate split (spec section 4.3). -/
def gainOf (l2 gl hl gr hr gt ht : ℚ) : ℚ :=
  1 / 2 * gl ^ 2 / (hl + l2) + 1 / 2 * gr ^ 2 / (hr + l2) - 1 / 2 * gt ^ 2 / (ht + l2)

/-- One admissible candidate boundary produced by the bin scan. -/
structure SplitCandidate where
  binIdx : Nat
  nLeft : Nat
  gradLeft : ℚ
  hessLeft : ℚ
  nRight : Nat
  gradRight : ℚ
  hessRight : ℚ
  gain : ℚ
  deriving Repr, DecidableEq

/-- Evaluate candidate boundary bin `b`: reject it when a hessian sum is
below `min_hessian_to_split` or a side has fewer than `min_samples_leaf`
samples, otherwise score it with the regularized gain (spec section 4.3). -/
def candidateAt (ctx : SplittingContext) (hist : List HistEntry) (tot : HistEntry)
    (b : Nat) : Option SplitCandidate :=
  let pre := prefixStats hist b
  let hl := leftHess ctx pre
  let hr := tot.sumHessians - hl
  if hl < ctx.minHessianToSplit ∨ hr < ctx.minHessianToSplit ∨
      pre.count < ctx.minSamplesLeaf ∨ tot.count - pre.count < ctx.minSamplesLeaf
  then none
  else some
    ⟨b, pre.count, pre.sumGradients, hl, tot.count - pre.count,
     tot.sumGradients - pre.sumGradients, hr,
     gainOf ctx.l2Regularization pre.sumGradients hl
       (tot.sumGradients - pre.sumGradients) hr tot.sumGradients tot.sumHessians⟩

/-- All admissible candidates of one feature, in increasing bin order over
boundary bins `0 ≤ b < B - 1` (the last bin would leave the right side
empty, spec section 4.3). -/
def featureCandidates (ctx : SplittingContext) (f : Nat) (hist : List HistEntry)
    (tot : HistEntry) : List SplitCandidate :=
  (List.range (ctx.n_bins_per_feature.getD f ctx.n_bins - 1)).filterMap
    (candidateAt ctx hist tot)

/-- First maximum of a list under a score function: ties are broken in favor
of the earliest element, keeping the search deterministic
(spec section 4.3). -/
def firstArgmax (g : α → ℚ) : List α → Option α
  | [] => none
  | x :: rest =>
    match firstArgmax g rest with
    | none => some x
    | some b => if g x < g b then some b else some x

/-- Best-found split of a node (spec section 3). -/
structure SplitInfo where
  gain : ℚ
  featureIdx : Nat
  binIdx : Nat
  gradientLeft : ℚ
  gradientRight : ℚ
  hessianLeft : ℚ
  hessianRight : ℚ
  nSamplesLeft : Nat
  nSamplesRight : Nat
  deriving Repr, DecidableEq

/-- Sentinel `SplitInfo` meaning no acceptable split: its gain is the
distinguished negative value `-1`; its sides are the trivial no-split
decomposition (everything on the right), which keeps the left/right sums
consistent with the node totals (spec sections 3 and 4.3). -/
def sentinelInfo (f : Nat) (tot : HistEntry) : SplitInfo :=
  ⟨-1, f, 0, 0, tot.sumGradients, 0, tot.sumHessians, 0, tot.count⟩

/-- Split search over one feature's histogram: first-maximum over the
admissible candidates, demoted to the sentinel when the best gain does not
strictly exceed `min_gain_to_split` (spec section 4.3). -/
def findHistogramSplitFromHist (ctx : SplittingContext) (f : Nat)
    (hist : List HistEntry) (tot : HistEntry) : SplitInfo :=
  match firstArgmax SplitCandidate.gain (featureCandidates ctx f hist tot) with
  | none => sentinelInfo f tot
  | some c =>
    if c.gain ≤ ctx.minGainToSplit then sentinelInfo f tot
    else ⟨c.gain, f, c.binIdx, c.gradLeft, c.gradRight, c.hessLeft, c.hessRight,
          c.nLeft, c.nRight⟩

/-- The test suite's `_find_histogram_split`: build one feature's histogram
directly and search it, returning the `SplitInfo` and the histogram. -/
def find_histogram_split (ctx : SplittingContext) (f : Nat) (indices : List Nat) :
    SplitInfo × List HistEntry :=
  let hist := buildHistogram ctx f indices
  (findHistogramSplitFromHist ctx f hist (nodeTotals ctx indices), hist)

/-- Best split across all features for given per-feature histograms: the
first maximum over the per-feature results (ties broken by lowest feature
index, spec section 4.3). -/
def findNodeSplitFromHists (ctx : SplittingContext) (hists : List (List HistEntry))
    (tot : HistEntry) : SplitInfo :=
  let infos := (List.range ctx.X_binned.length).map
    (fun f => findHistogramSplitFromHist ctx f (hists.getD f []) tot)
  (firstArgmax SplitInfo.gain infos).getD (sentinelInfo 0 tot)

/-- Direct-accumulation node split search (`find_node_split`): compute every
feature's histogram directly over the node's sample indices, then search
them (spec sections 4.2 and 4.3). -/
def find_node_split (ctx : SplittingContext) (indices : List Nat) :
    SplitInfo × List (List HistEntry) :=
  let hists := (List.range ctx.X_binned.length).map (fun f => buildHistogram ctx f indices)
  (findNodeSplitFromHists ctx hists (nodeTotals ctx indices), hists)

/-- Node totals recovered from a histogram in the subtraction path: summing
a histogram's entries over all bins yields the node's count and gradient
sum; in constant-hessian mode the hessian total is derived analytically as
`count * scalar` since histograms carry the `0` sentinel
(spec section 3). -/
def subtractionTotals (ctx : SplittingContext) (hist : List HistEntry) : HistEntry :=
  let t := sumEntries hist
  ⟨t.count, t.sumGradients,
   match ctx.hessians with
   | Hessians.constant c => (t.count : ℚ) * c
   | Hessians.perSample _ => t.sumHessians⟩

/-- Subtraction-method node split search (`find_node_split_subtraction`):
derive every feature's histogram bin-by-bin as parent minus sibling, then
search them; the sample indices are carried for interface parity with the
direct method (spec section 4.2). -/
def find_node_split_subtraction (ctx : SplittingContext) (indices : List Nat)
    (parentHists siblingHists : List (List HistEntry)) :
    SplitInfo × List (List HistEntry) :=
  let hists := List.zipWith histSub parentHists siblingHists
  (findNodeSplitFromHists ctx hists (subtractionTotals ctx (hists.getD 0 [])), hists)

/-- Goes-left predicate of a chosen split: bin value at the winning feature
at most the winning bin index (spec sections 3 and 4.4). -/
def goesLeft (ctx : SplittingContext) (si : SplitInfo) (i : Nat) : Bool :=
  decide (binOf ctx si.featureIdx i ≤ si.binIdx)

/-- Sequential single-pass partition of a node's sample-index range into the
goes-left samples followed by the goes-right samples
(`split_indices_single_thread`, spec section 4.4). -/
def split_indices_single_thread (ctx : SplittingContext) (si : SplitInfo)
    (sampleIndices : List Nat) : List Nat × List Nat :=
  sampleIndices.partition (goesLeft ctx si)

/-- Fuel-driven worker for `chunksOf`; the fuel bounds the recursion depth
and is always at least the list length at the call sites. -/
def chunksOfAux (c : Nat) : Nat → List α → List (List α)
  | 0, _ => []
  | _, [] => []
  | Nat.succ fuel, x :: xs => (x :: xs.take c) :: chunksOfAux c fuel (xs.drop c)

/-- Cut a list into chunks of `c + 1` consecutive elements (the last chunk
may be shorter). -/
def chunksOf (c : Nat) (l : List α) : List (List α) :=
  chunksOfAux c l.length l

/-- Concatenation of a list of lists. -/
def concatLists : List (List α) → List α
  | [] => []
  | l :: ls => l ++ concatLists ls

/-- Parallel partition of a node's sample-index range
(`split_indices_parallel`).  Modelled from the spec: the range is divided
into chunks (one per worker of a small bounded pool), each worker classifies
its chunk's elements into left/right members, and a merge pass places each
chunk's left block, in chunk order, into the contiguous left region, and
likewise for the right region (spec sections 4.4 and 5). -/
def split_indices_parallel (ctx : SplittingContext) (si : SplitInfo)
    (sampleIndices : List Nat) : List Nat × List Nat :=
  let chunks := chunksOf (sampleIndices.length / 4) sampleIndices
  let parts := chunks.map (fun ch => ch.partition (goesLeft ctx si))
  (concatLists (parts.map Prod.fst), concatLists (parts.map Prod.snd))

/-- Well-formedness of a splitting context: a positive bin count and every
stored bin index within range. -/
def ctxValid (ctx : SplittingContext) : Prop :=
  0 < ctx.n_bins ∧ ∀ col ∈ ctx.X_binned, ∀ v ∈ col, v < ctx.n_bins

end Pygbm

namespace GradientBoosting

/-- Configuration of `GradientBoostingMachine` as stored by `__init__`
(`gradient_boosting.py` lines 14-29); the fields irrelevant to data flow
(verbosity, scoring, random state) are omitted. -/
structure GBMConfig where
  learning_rate : ℚ
  max_iter : Nat
  max_leaf_nodes : Nat
  max_depth : Option Nat
  l2_regularization : ℚ
  n_bins : Nat
  max_no_improvement : Nat
  validation_split : Option ℚ
  tol : Option ℚ

/-- Keyword arguments of one `TreeGrower(...)` construction inside `fit`:
`some v` means the keyword is passed with value `v`, `none` means the
keyword is not passed at all, leaving the grower's own default in force. -/
structure TreeGrowerKwargs where
  n_bins : Option Nat
  max_leaf_nodes : Option Nat
  max_depth : Option (Option Nat)
  shrinkage : Option ℚ
  l2_regularization : Option ℚ
  min_samples_leaf : Option Nat
  min_hessian_to_split : Option ℚ
  min_gain_to_split : Option ℚ
  deriving DecidableEq

/-- The keyword arguments `fit` actually passes to `TreeGrower`
(`gradient_boosting.py` lines 89-92): `n_bins`, `max_leaf_nodes`,
`max_depth` and `shrinkage` only. -/
def fitTreeGrowerKwargs (cfg : GBMConfig) : TreeGrowerKwargs :=
  ⟨some cfg.n_bins, some cfg.max_leaf_nodes, some cfg.max_depth,
   some cfg.learning_rate, none, none, none, none⟩

/-- Symbolic numpy-matrix expressions arising in `fit`'s data flow
(`gradient_boosting.py` lines 36-58): the checked raw input `X`, the binned
matrix `bin_mapper_.fit_transform(x)`, the training part of
`train_test_split(x, ...)`, and `np.asfortranarray(x)`. -/
inductive NpExpr where
  | input
  | fitTransform (x : NpExpr)
  | trainSplitTrain (x : NpExpr)
  | asFortran (x : NpExpr)
  deriving DecidableEq

/-- The matrix bound to `X_binned_train` by `fit` (`gradient_boosting.py`
lines 50-58), which is the matrix later handed to every `TreeGrower` and to
`predict_binned` for the residual update (lines 89-97): with a validation
split it is the Fortran-ordered binned training subset, without one it is
the raw checked input `X` itself. -/
def fitXBinnedTrain (validation_split : Option ℚ) : NpExpr :=
  match validation_split with
  | some _ => NpExpr.asFortran (NpExpr.trainSplitTrain (NpExpr.fitTransform NpExpr.input))
  | none => NpExpr.input

/-- Numpy dtypes relevant to `fit`'s gradient/hessian arrays. -/
inductive DType where
  | float32
  | float64
  deriving DecidableEq

/-- A one-dimensional numpy array: a dtype tag plus exact element values. -/
structure NpVec where
  dtype : DType
  data : List ℚ
  deriving DecidableEq

/-- The gradient and hessian arrays passed to one `TreeGrower`
construction. -/
structure GrowerCall where
  gradients : NpVec
  hessians : NpVec
  deriving DecidableEq

/-- The hessian array created once before the boosting loop:
`np.ones(1, dtype=np.float32)` (`gradient_boosting.py` line 73). -/
def fitHessians : NpVec :=
  ⟨DType.float32, [1]⟩

/-- The initial gradient array:
`np.asarray(y_train, dtype=np.float32).copy()` (`gradient_boosting.py`
line 72). -/
def fitInitGradients (y_train : List ℚ) : NpVec :=
  ⟨DType.float32, y_train⟩

/-- The boosting loop of `fit` (`gradient_boosting.py` lines 82-97),
recorded as the list of `TreeGrower` constructions it performs: each round
first consults the stopping criterion, then passes the current gradients and
the shared hessian array to a fresh grower, then subtracts the new
predictor's binned predictions from the gradients in place.  The stopping
criterion and the predictor are abstracted as functions of the round index
and of the current gradients. -/
def fitRounds (stop : Nat → Bool) (predictBinned : List ℚ → List ℚ) :
    Nat → List ℚ → List GrowerCall
  | 0, _ => []
  | Nat.succ k, grads =>
    if stop k then []
    else
      ⟨⟨DType.float32, grads⟩, fitHessians⟩ ::
        fitRounds stop predictBinned k (List.zipWith Sub.sub grads (predictBinned grads))

end GradientBoosting

namespace Pygbm

/-! ### Generic list helpers -/

theorem getD_mem_or_default (l : List α) (n : Nat) (d : α) :
    l.getD n d ∈ l ∨ l.getD n d = d := by
  induction l generalizing n with
  | nil => right; rfl
  | cons a t ih =>
    cases n with
    | zero => left; exact List.mem_cons_self a t
    | succ m =>
      rcases ih m with h | h
      · left; exact List.mem_cons_of_mem a h
      · right; exact h

theorem getD_map_lt (l : List α) (F : α → β) (i : Nat) (d : β) (d' : α)
    (h : i < l.length) : (l.map F).getD i d = F (l.getD i d') := by
  induction l generalizing i with
  | nil => simp at h
  | cons a t ih =>
    cases i with
    | zero => rfl
    | succ m => exact ih m (by simpa using h)

theorem range_map_getD (l : List α) (d : α) :
    (List.range l.length).map (fun i => l.getD i d) = l := by
  induction l with
  | nil => rfl
  | cons a t ih =>
    rw [List.length_cons, List.range_succ_eq_map, List.map_cons, List.map_map]
    have h1 : ((fun i => (a :: t).getD i d) ∘ Nat.succ) = (fun i => t.getD i d) := by
      funext i; rfl
    rw [h1, ih]
    rfl

theorem filter_map_comm (F : α → β) (p : β → Bool) (l : List α) :
    (l.map F).filter p = (l.filter (fun a => p (F a))).map F := by
  induction l with
  | nil => rfl
  | cons a t ih =>
    by_cases h : p (F a)
    · simp [List.filter_cons, h, ih]
    · simp [List.filter_cons, h, ih]

theorem sum_map_const_on (l : List α) (F : α → ℚ) (c : ℚ)
    (h : ∀ a ∈ l, F a = c) : (l.map F).sum = l.length * c := by
  induction l with
  | nil => simp
  | cons a t ih =>
    rw [List.map_cons, List.sum_cons, ih (fun x hx => h x (List.mem_cons_of_mem a hx)),
      h a (List.mem_cons_self a t), List.length_cons]
    push_cast
    ring

theorem sum_filter_split (l : List α) (p : α → Bool) (F : α → ℚ) :
    (l.map F).sum = ((l.filter p).map F).sum + ((l.filter (fun a => !p a)).map F).sum := by
  induction l with
  | nil => simp
  | cons a t ih =>
    by_cases h : p a
    · simp only [List.filter_cons, h, List.map_cons, List.sum_cons, ih]
      simp [h]
      ring
    · simp only [List.filter_cons, h, List.map_cons, List.sum_cons, ih]
      simp only [Bool.not_false, if_true, if_false, List.map_cons, List.sum_cons,
        Bool.not_eq_true']
      simp [h]
      ring

theorem length_filter_split (l : List α) (p : α → Bool) :
    (l.filter p).length + (l.filter (fun a => !p a)).length = l.length := by
  induction l with
  | nil => rfl
  | cons a t ih =>
    by_cases h : p a <;> simp [List.filter_cons, h, ← ih] <;> omega

theorem length_filter_mono (l : List α) (p q : α → Bool)
    (h : ∀ a ∈ l, p a = true → q a = true) :
    (l.filter p).length ≤ (l.filter q).length := by
  induction l with
  | nil => exact Nat.le_refl 0
  | cons a t ih =>
    have ht : ∀ x ∈ t, p x = true → q x = true :=
      fun x hx => h x (List.mem_cons_of_mem a hx)
    by_cases hp : p a
    · have hq := h a (List.mem_cons_self a t) hp
      simp only [List.filter_cons, hp, hq, if_true, List.length_cons]
      exact Nat.succ_le_succ (ih ht)
    · by_cases hq : q a
      · simp only [List.filter_cons, hp, hq, if_true, if_false, List.length_cons]
        exact Nat.le_succ_of_le (ih ht)
      · simp only [List.filter_cons, hp, hq, if_false]
        exact ih ht

theorem length_filter_lt (l : List α) (p q : α → Bool) (x : α)
    (hmono : ∀ a ∈ l, p a = true → q a = true)
    (hx : x ∈ l) (hqx : q x = true) (hpx : p x = false) :
    (l.filter p).length < (l.filter q).length := by
  induction l with
  | nil => simp at hx
  | cons a t ih =>
    have ht : ∀ y ∈ t, p y = true → q y = true :=
      fun y hy => hmono y (List.mem_cons_of_mem a hy)
    rcases List.mem_cons.mp hx with rfl | hxt
    · simp only [List.filter_cons, hpx, hqx, if_true, if_false, List.length_cons]
      exact Nat.lt_succ_of_le (length_filter_mono t p q ht)
    · by_cases hp : p a
      · have hq := hmono a (List.mem_cons_self a t) hp
        simp only [List.filter_cons, hp, hq, if_true, List.length_cons]
        exact Nat.succ_lt_succ (ih ht hxt)
      · by_cases hq : q a
        · simp only [List.filter_cons, hp, hq, if_true, if_false, List.length_cons]
          exact Nat.lt_succ_of_lt (ih ht hxt)
        · simp only [List.filter_cons, hp, hq, if_false]
          exact ih ht hxt

theorem length_filter_pos (l : List α) (p : α → Bool) (x : α)
    (hx : x ∈ l) (hpx : p x = true) : 0 < (l.filter p).length := by
  have : x ∈ l.filter p := List.mem_filter.mpr ⟨hx, hpx⟩
  exact List.length_pos.mpr (List.ne_nil_of_mem this)

end Pygbm

namespace Pygbm

/-! ### Histogram structure lemmas -/

theorem length_histAdd (h : List HistEntry) (b : Nat) (g he : ℚ) :
    (histAdd h b g he).length = h.length := by
  induction h generalizing b with
  | nil => rfl
  | cons e rest ih =>
    cases b with
    | zero => rfl
    | succ m => simpa [histAdd] using ih m

theorem length_buildHistogram (ctx : SplittingContext) (f : Nat) (l : List Nat) :
    (buildHistogram ctx f l).length = ctx.n_bins := by
  induction l with
  | nil => simp [buildHistogram]
  | cons i rest ih => simpa [buildHistogram, length_histAdd] using ih

/-- Entry lookup with the zero default. -/
def histGet (h : List HistEntry) (b : Nat) : HistEntry :=
  h.getD b ⟨0, 0, 0⟩

theorem histGet_histAdd (h : List HistEntry) (c b : Nat) (g he : ℚ) :
    histGet (histAdd h c g he) b =
      if b = c ∧ c < h.length then
        ⟨(histGet h b).count + 1, (histGet h b).sumGradients + g,
         (histGet h b).sumHessians + he⟩
      else histGet h b := by
  induction h generalizing c b with
  | nil =>
    have : ¬ (b = c ∧ c < ([] : List HistEntry).length) := by simp
    simp [histAdd, this]
  | cons e rest ih =>
    cases c with
    | zero =>
      cases b with
      | zero => simp [histAdd, histGet]
      | succ m =>
        have : ¬ ((Nat.succ m) = 0 ∧ (0 : Nat) < (e :: rest).length) := by simp
        simp only [histAdd, this, if_false]
        rfl
    | succ c' =>
      cases b with
      | zero =>
        have : ¬ ((0 : Nat) = Nat.succ c' ∧ Nat.succ c' < (e :: rest).length) := by simp
        simp only [histAdd, this, if_false]
        rfl
      | succ m =>
        have heq : (Nat.succ m = Nat.succ c' ∧ Nat.succ c' < (e :: rest).length) ↔
            (m = c' ∧ c' < rest.length) := by
          constructor
          · rintro ⟨h1, h2⟩
            exact ⟨Nat.succ_injective h1, Nat.lt_of_succ_lt_succ (by simpa using h2)⟩
          · rintro ⟨h1, h2⟩
            exact ⟨by omega, by simpa using Nat.succ_lt_succ h2⟩
        have hstep : histGet (histAdd (e :: rest) (Nat.succ c') g he) (Nat.succ m) =
            histGet (histAdd rest c' g he) m := rfl
        have hget : histGet (e :: rest) (Nat.succ m) = histGet rest m := rfl
        rw [hstep, ih c' m, hget]
        by_cases hc : m = c' ∧ c' < rest.length
        · rw [if_pos hc, if_pos (heq.mpr hc)]
        · rw [if_neg hc, if_neg (fun hx => hc (heq.mp hx))]

theorem sumEntries_take_histAdd (h : List HistEntry) (c k : Nat) (g he : ℚ)
    (hc : c < h.length) :
    sumEntries ((histAdd h c g he).take k) =
      if c < k then
        ⟨(sumEntries (h.take k)).count + 1, (sumEntries (h.take k)).sumGradients + g,
         (sumEntries (h.take k)).sumHessians + he⟩
      else sumEntries (h.take k) := by
  induction h generalizing c k with
  | nil => simp at hc
  | cons e rest ih =>
    cases c with
    | zero =>
      cases k with
      | zero => simp [histAdd]
      | succ m =>
        have h0 : (0 : Nat) < Nat.succ m := Nat.succ_pos m
        simp only [histAdd, List.take_succ_cons, sumEntries, h0, if_true]
        simp only [HistEntry.mk.injEq]
        exact ⟨by omega, by ring, by ring⟩
    | succ c' =>
      cases k with
      | zero => simp [histAdd]
      | succ m =>
        have hc' : c' < rest.length := by
          have := hc
          simp only [List.length_cons] at this
          omega
        simp only [histAdd, List.take_succ_cons, sumEntries, ih c' m hc']
        by_cases hcm : c' < m
        · rw [if_pos hcm, if_pos (show Nat.succ c' < Nat.succ m by omega)]
          simp only [HistEntry.mk.injEq]
          exact ⟨by omega, by ring, by ring⟩
        · rw [if_neg hcm, if_neg (show ¬ Nat.succ c' < Nat.succ m by omega)]

theorem sumEntries_replicate_zero (n : Nat) :
    sumEntries (List.replicate n ⟨0, 0, 0⟩) = ⟨0, 0, 0⟩ := by
  induction n with
  | zero => rfl
  | succ m ih => simp [List.replicate, sumEntries, ih]

theorem sumEntries_take_count_le (h : List HistEntry) (k : Nat) :
    (sumEntries (h.take k)).count ≤ (sumEntries h).count := by
  induction h generalizing k with
  | nil => simp
  | cons e rest ih =>
    cases k with
    | zero => simp [sumEntries]
    | succ m =>
      simp only [List.take_succ_cons, sumEntries]
      exact Nat.add_le_add_left (ih m) e.count

end Pygbm

namespace Pygbm

/-! ### Characterization of direct-accumulation histograms -/

theorem binOf_lt (ctx : SplittingContext) (hv : ctxValid ctx) (f i : Nat) :
    binOf ctx f i < ctx.n_bins := by
  unfold binOf
  rcases getD_mem_or_default ctx.X_binned f [] with hcol | hcol
  · rcases getD_mem_or_default (ctx.X_binned.getD f []) i 0 with hval | hval
    · exact hv.2 _ hcol _ hval
    · rw [hval]; exact hv.1
  · rw [hcol]; exact hv.1

theorem sumEntries_take_buildHistogram (ctx : SplittingContext) (f : Nat)
    (l : List Nat) (k : Nat) (hv : ∀ i ∈ l, binOf ctx f i < ctx.n_bins) :
    sumEntries ((buildHistogram ctx f l).take k) =
      ⟨(l.filter (fun i => decide (binOf ctx f i < k))).length,
       ((l.filter (fun i => decide (binOf ctx f i < k))).map (gradOf ctx)).sum,
       ((l.filter (fun i => decide (binOf ctx f i < k))).map (histHessOf ctx)).sum⟩ := by
  induction l with
  | nil =>
    simp only [buildHistogram, List.filter_nil, List.map_nil, List.sum_nil, List.length_nil]
    rw [List.take_replicate, sumEntries_replicate_zero]
  | cons i rest ih =>
    have hvr : ∀ j ∈ rest, binOf ctx f j < ctx.n_bins :=
      fun j hj => hv j (List.mem_cons_of_mem i hj)
    have hbin : binOf ctx f i < (buildHistogram ctx f rest).length := by
      rw [length_buildHistogram]
      exact hv i (List.mem_cons_self i rest)
    rw [buildHistogram, sumEntries_take_histAdd _ _ _ _ _ hbin, ih hvr]
    by_cases hik : binOf ctx f i < k
    · have hfil : (i :: rest).filter (fun j => decide (binOf ctx f j < k)) =
          i :: rest.filter (fun j => decide (binOf ctx f j < k)) := by
        simp [List.filter_cons, hik]
      rw [if_pos hik, hfil]
      simp only [List.length_cons, List.map_cons, List.sum_cons, HistEntry.mk.injEq]
      refine ⟨?_, ?_, ?_⟩ <;> try simp
      all_goals first | rfl | omega | ring
    · have hfil : (i :: rest).filter (fun j => decide (binOf ctx f j < k)) =
          rest.filter (fun j => decide (binOf ctx f j < k)) := by
        simp [List.filter_cons, hik]
      rw [if_neg hik, hfil]

theorem histGet_buildHistogram (ctx : SplittingContext) (f : Nat)
    (l : List Nat) (b : Nat) (hv : ∀ i ∈ l, binOf ctx f i < ctx.n_bins) :
    histGet (buildHistogram ctx f l) b =
      ⟨(l.filter (fun i => decide (binOf ctx f i = b))).length,
       ((l.filter (fun i => decide (binOf ctx f i = b))).map (gradOf ctx)).sum,
       ((l.filter (fun i => decide (binOf ctx f i = b))).map (histHessOf ctx)).sum⟩ := by
  induction l with
  | nil =>
    simp only [buildHistogram, List.filter_nil, List.map_nil, List.sum_nil, List.length_nil]
    unfold histGet
    induction ctx.n_bins generalizing b with
    | zero => cases b <;> rfl
    | succ n ihn =>
      cases b with
      | zero => rfl
      | succ m => simpa [List.replicate] using ihn m
  | cons i rest ih =>
    have hvr : ∀ j ∈ rest, binOf ctx f j < ctx.n_bins :=
      fun j hj => hv j (List.mem_cons_of_mem i hj)
    have hbin : binOf ctx f i < (buildHistogram ctx f rest).length := by
      rw [length_buildHistogram]
      exact hv i (List.mem_cons_self i rest)
    rw [buildHistogram, histGet_histAdd, ih hvr]
    by_cases hib : b = binOf ctx f i
    · have hfil : (i :: rest).filter (fun j => decide (binOf ctx f j = b)) =
          i :: rest.filter (fun j => decide (binOf ctx f j = b)) := by
        simp [List.filter_cons, hib]
      rw [if_pos ⟨hib, hbin⟩, hfil]
      simp only [List.length_cons, List.map_cons, List.sum_cons, HistEntry.mk.injEq]
      refine ⟨?_, ?_, ?_⟩ <;> try simp
      all_goals first | rfl | omega | ring
    · have hfil : (i :: rest).filter (fun j => decide (binOf ctx f j = b)) =
          rest.filter (fun j => decide (binOf ctx f j = b)) := by
        simp only [List.filter_cons]
        rw [if_neg ?_]
        simp only [decide_eq_true_eq]
        exact fun hx => hib hx.symm
      rw [if_neg (fun hx => hib hx.1), hfil]

theorem sumEntries_buildHistogram (ctx : SplittingContext) (f : Nat)
    (l : List Nat) (hv : ∀ i ∈ l, binOf ctx f i < ctx.n_bins) :
    sumEntries (buildHistogram ctx f l) =
      ⟨l.length, (l.map (gradOf ctx)).sum, (l.map (histHessOf ctx)).sum⟩ := by
  have htake : (buildHistogram ctx f l).take ctx.n_bins = buildHistogram ctx f l := by
    rw [← length_buildHistogram ctx f l]
    exact List.take_length _
  have hfilter : l.filter (fun i => decide (binOf ctx f i < ctx.n_bins)) = l :=
    List.filter_eq_self.mpr (fun i hi => by simpa using hv i hi)
  rw [← htake, sumEntries_take_buildHistogram ctx f l ctx.n_bins hv, hfilter]

end Pygbm

namespace Pygbm

/-! ### Split-search structural lemmas -/

theorem firstArgmax_mem (g : α → ℚ) (l : List α) (x : α)
    (h : firstArgmax g l = some x) : x ∈ l := by
  induction l generalizing x with
  | nil => simp [firstArgmax] at h
  | cons a rest ih =>
    cases hrec : firstArgmax g rest with
    | none =>
      simp only [firstArgmax, hrec] at h
      obtain rfl := Option.some_injective _ h
      exact List.mem_cons_self a rest
    | some b =>
      simp only [firstArgmax, hrec] at h
      by_cases hg : g a < g b
      · rw [if_pos hg] at h
        obtain rfl := Option.some_injective _ h
        exact List.mem_cons_of_mem a (ih b hrec)
      · rw [if_neg hg] at h
        obtain rfl := Option.some_injective _ h
        exact List.mem_cons_self a rest

theorem firstArgmax_isSome (g : α → ℚ) (a : α) (l : List α) :
    ∃ x, firstArgmax g (a :: l) = some x := by
  cases hrec : firstArgmax g l with
  | none => exact ⟨a, by simp only [firstArgmax, hrec]⟩
  | some b =>
    by_cases hg : g a < g b
    · exact ⟨b, by simp only [firstArgmax, hrec]; rw [if_pos hg]⟩
    · exact ⟨a, by simp only [firstArgmax, hrec]; rw [if_neg hg]⟩

theorem firstArgmax_le (g : α → ℚ) (l : List α) (x : α)
    (h : firstArgmax g l = some x) : ∀ y ∈ l, g y ≤ g x := by
  induction l generalizing x with
  | nil => simp [firstArgmax] at h
  | cons a rest ih =>
    intro y hy
    cases hrec : firstArgmax g rest with
    | none =>
      cases rest with
      | nil =>
        simp only [firstArgmax, hrec] at h
        obtain rfl := Option.some_injective _ h
        rcases List.mem_cons.mp hy with rfl | hmem
        · exact le_refl _
        · simp at hmem
      | cons b t =>
        rcases firstArgmax_isSome g b t with ⟨z, hz⟩
        rw [hz] at hrec
        cases hrec
    | some b =>
      simp only [firstArgmax, hrec] at h
      by_cases hg : g a < g b
      · rw [if_pos hg] at h
        obtain rfl := Option.some_injective _ h
        rcases List.mem_cons.mp hy with rfl | hmem
        · exact le_of_lt hg
        · exact ih b hrec y hmem
      · rw [if_neg hg] at h
        obtain rfl := Option.some_injective _ h
        rcases List.mem_cons.mp hy with rfl | hmem
        · exact le_refl _
        · exact le_trans (ih b hrec y hmem) (not_lt.mp hg)

theorem firstArgmax_unique_max (g : α → ℚ) (l : List α) (x : α)
    (hx : x ∈ l) (hmax : ∀ y ∈ l, y = x ∨ g y < g x) :
    firstArgmax g l = some x := by
  induction l with
  | nil => simp at hx
  | cons a rest ih =>
    rcases List.mem_cons.mp hx with rfl | hxr
    · cases hrec : firstArgmax g rest with
      | none => simp only [firstArgmax, hrec]
      | some b =>
        have hb : b ∈ rest := firstArgmax_mem g rest b hrec
        simp only [firstArgmax, hrec]
        rcases hmax b (List.mem_cons_of_mem x hb) with rfl | hlt
        · rw [if_neg (lt_irrefl (g b))]
        · rw [if_neg (not_lt.mpr (le_of_lt hlt))]
    · have hrec : firstArgmax g rest = some x :=
        ih hxr (fun y hy => hmax y (List.mem_cons_of_mem a hy))
      simp only [firstArgmax, hrec]
      rcases hmax a (List.mem_cons_self a rest) with rfl | hlt
      · rw [if_neg (lt_irrefl (g a))]
      · rw [if_pos hlt]

theorem candidateAt_some (ctx : SplittingContext) (hist : List HistEntry)
    (tot : HistEntry) (b : Nat) (c : SplitCandidate)
    (h : candidateAt ctx hist tot b = some c) :
    c = ⟨b, (prefixStats hist b).count, (prefixStats hist b).sumGradients,
        leftHess ctx (prefixStats hist b),
        tot.count - (prefixStats hist b).count,
        tot.sumGradients - (prefixStats hist b).sumGradients,
        tot.sumHessians - leftHess ctx (prefixStats hist b),
        gainOf ctx.l2Regularization (prefixStats hist b).sumGradients
          (leftHess ctx (prefixStats hist b))
          (tot.sumGradients - (prefixStats hist b).sumGradients)
          (tot.sumHessians - leftHess ctx (prefixStats hist b))
          tot.sumGradients tot.sumHessians⟩ ∧
      ¬ (leftHess ctx (prefixStats hist b) < ctx.minHessianToSplit ∨
         tot.sumHessians - leftHess ctx (prefixStats hist b) < ctx.minHessianToSplit ∨
         (prefixStats hist b).count < ctx.minSamplesLeaf ∨
         tot.count - (prefixStats hist b).count < ctx.minSamplesLeaf) := by
  rw [candidateAt] at h
  by_cases hcond : leftHess ctx (prefixStats hist b) < ctx.minHessianToSplit ∨
      tot.sumHessians - leftHess ctx (prefixStats hist b) < ctx.minHessianToSplit ∨
      (prefixStats hist b).count < ctx.minSamplesLeaf ∨
      tot.count - (prefixStats hist b).count < ctx.minSamplesLeaf
  · simp only [hcond, if_true] at h
    cases h
  · simp only [hcond, if_false] at h
    exact ⟨(Option.some_injective _ h).symm, hcond⟩

theorem candidateAt_accept (ctx : SplittingContext) (hist : List HistEntry)
    (tot : HistEntry) (b : Nat)
    (hcond : ¬ (leftHess ctx (prefixStats hist b) < ctx.minHessianToSplit ∨
        tot.sumHessians - leftHess ctx (prefixStats hist b) < ctx.minHessianToSplit ∨
        (prefixStats hist b).count < ctx.minSamplesLeaf ∨
        tot.count - (prefixStats hist b).count < ctx.minSamplesLeaf)) :
    candidateAt ctx hist tot b = some
      ⟨b, (prefixStats hist b).count, (prefixStats hist b).sumGradients,
       leftHess ctx (prefixStats hist b),
       tot.count - (prefixStats hist b).count,
       tot.sumGradients - (prefixStats hist b).sumGradients,
       tot.sumHessians - leftHess ctx (prefixStats hist b),
       gainOf ctx.l2Regularization (prefixStats hist b).sumGradients
         (leftHess ctx (prefixStats hist b))
         (tot.sumGradients - (prefixStats hist b).sumGradients)
         (tot.sumHessians - leftHess ctx (prefixStats hist b))
         tot.sumGradients tot.sumHessians⟩ := by
  rw [candidateAt]
  simp only [hcond, if_false]

theorem sentinel_of_all_le (ctx : SplittingContext) (f : Nat)
    (hist : List HistEntry) (tot : HistEntry)
    (h : ∀ c ∈ featureCandidates ctx f hist tot, c.gain ≤ ctx.minGainToSplit) :
    findHistogramSplitFromHist ctx f hist tot = sentinelInfo f tot := by
  cases hb : firstArgmax SplitCandidate.gain (featureCandidates ctx f hist tot) with
  | none => rw [findHistogramSplitFromHist, hb]
  | some c =>
    have hc : c ∈ featureCandidates ctx f hist tot := firstArgmax_mem _ _ _ hb
    rw [findHistogramSplitFromHist, hb]
    exact if_pos (h c hc)

theorem sentinelInfo_gain (f : Nat) (tot : HistEntry) :
    (sentinelInfo f tot).gain = -1 := rfl

end Pygbm

namespace Pygbm

/-! ### Subtraction method equals direct accumulation -/

theorem histSub_buildHistogram (ctx : SplittingContext) (f : Nat)
    (pIdx lIdx rIdx : List Nat) (hv : ctxValid ctx)
    (hperm : pIdx.Perm (lIdx ++ rIdx)) :
    histSub (buildHistogram ctx f pIdx) (buildHistogram ctx f rIdx) =
      buildHistogram ctx f lIdx := by
  have hvp : ∀ i ∈ pIdx, binOf ctx f i < ctx.n_bins := fun i _ => binOf_lt ctx hv f i
  have hvl : ∀ i ∈ lIdx, binOf ctx f i < ctx.n_bins := fun i _ => binOf_lt ctx hv f i
  have hvr : ∀ i ∈ rIdx, binOf ctx f i < ctx.n_bins := fun i _ => binOf_lt ctx hv f i
  have hlen : (histSub (buildHistogram ctx f pIdx) (buildHistogram ctx f rIdx)).length =
      (buildHistogram ctx f lIdx).length := by
    simp only [histSub]
    rw [List.length_zipWith, length_buildHistogram, length_buildHistogram,
      length_buildHistogram]
    exact Nat.min_self ctx.n_bins
  refine List.ext_get hlen ?_
  intro b h1 h2
  have hb : b < ctx.n_bins := by
    rw [length_buildHistogram] at h2
    exact h2
  have hget : ∀ (L : List HistEntry) (hbl : b < L.length), L.get ⟨b, hbl⟩ = histGet L b := by
    intro L hbl
    rw [histGet, List.getD_eq_getElem L _ hbl]
    rfl
  rw [hget _ h1, hget _ h2]
  have hzip : histGet (histSub (buildHistogram ctx f pIdx) (buildHistogram ctx f rIdx)) b =
      ⟨(histGet (buildHistogram ctx f pIdx) b).count -
        (histGet (buildHistogram ctx f rIdx) b).count,
       (histGet (buildHistogram ctx f pIdx) b).sumGradients -
        (histGet (buildHistogram ctx f rIdx) b).sumGradients,
       (histGet (buildHistogram ctx f pIdx) b).sumHessians -
        (histGet (buildHistogram ctx f rIdx) b).sumHessians⟩ := by
    have hbp : b < (buildHistogram ctx f pIdx).length := by rw [length_buildHistogram]; exact hb
    have hbr : b < (buildHistogram ctx f rIdx).length := by rw [length_buildHistogram]; exact hb
    have hbz : b < (histSub (buildHistogram ctx f pIdx) (buildHistogram ctx f rIdx)).length := h1
    simp only [histSub] at hbz ⊢
    rw [histGet, histGet, histGet, List.getD_eq_getElem _ _ hbp, List.getD_eq_getElem _ _ hbr,
      List.getD_eq_getElem _ _ hbz, List.getElem_zipWith]
  rw [hzip, histGet_buildHistogram ctx f pIdx b hvp, histGet_buildHistogram ctx f rIdx b hvr,
    histGet_buildHistogram ctx f lIdx b hvl]
  have hpfil : (pIdx.filter (fun i => decide (binOf ctx f i = b))).Perm
      ((lIdx ++ rIdx).filter (fun i => decide (binOf ctx f i = b))) :=
    hperm.filter _
  have hsplit : (lIdx ++ rIdx).filter (fun i => decide (binOf ctx f i = b)) =
      lIdx.filter (fun i => decide (binOf ctx f i = b)) ++
      rIdx.filter (fun i => decide (binOf ctx f i = b)) :=
    List.filter_append _ _
  have hcount : (pIdx.filter (fun i => decide (binOf ctx f i = b))).length =
      (lIdx.filter (fun i => decide (binOf ctx f i = b))).length +
      (rIdx.filter (fun i => decide (binOf ctx f i = b))).length := by
    rw [hpfil.length_eq, hsplit, List.length_append]
  have hgsum : ((pIdx.filter (fun i => decide (binOf ctx f i = b))).map (gradOf ctx)).sum =
      ((lIdx.filter (fun i => decide (binOf ctx f i = b))).map (gradOf ctx)).sum +
      ((rIdx.filter (fun i => decide (binOf ctx f i = b))).map (gradOf ctx)).sum := by
    rw [(hpfil.map (gradOf ctx)).sum_eq, hsplit, List.map_append, List.sum_append]
  have hhsum : ((pIdx.filter (fun i => decide (binOf ctx f i = b))).map (histHessOf ctx)).sum =
      ((lIdx.filter (fun i => decide (binOf ctx f i = b))).map (histHessOf ctx)).sum +
      ((rIdx.filter (fun i => decide (binOf ctx f i = b))).map (histHessOf ctx)).sum := by
    rw [(hpfil.map (histHessOf ctx)).sum_eq, hsplit, List.map_append, List.sum_append]
  simp only [HistEntry.mk.injEq]
  refine ⟨?_, ?_, ?_⟩
  · rw [hcount]; omega
  · rw [hgsum]; ring
  · rw [hhsum]; ring

theorem zipWith_map_same (k : β → β → γ) (u v : α → β) (L : List α) :
    List.zipWith k (L.map u) (L.map v) = L.map (fun x => k (u x) (v x)) := by
  induction L with
  | nil => rfl
  | cons a t ih => simp [ih]

theorem subtraction_hists_eq (ctx : SplittingContext) (pIdx lIdx rIdx : List Nat)
    (hv : ctxValid ctx) (hperm : pIdx.Perm (lIdx ++ rIdx)) :
    List.zipWith histSub
        ((List.range ctx.X_binned.length).map (fun f => buildHistogram ctx f pIdx))
        ((List.range ctx.X_binned.length).map (fun f => buildHistogram ctx f rIdx)) =
      (List.range ctx.X_binned.length).map (fun f => buildHistogram ctx f lIdx) := by
  rw [zipWith_map_same]
  exact List.map_congr_left
    (fun f _ => histSub_buildHistogram ctx f pIdx lIdx rIdx hv hperm)

theorem getD_map_range_zero (u : Nat → β) (n : Nat) (d : β) (hn : 0 < n) :
    ((List.range n).map u).getD 0 d = u 0 := by
  cases n with
  | zero => cases hn
  | succ m => rw [List.range_succ_eq_map, List.map_cons]; rfl

theorem subtractionTotals_buildHistogram (ctx : SplittingContext) (l : List Nat)
    (hv : ctxValid ctx) :
    subtractionTotals ctx (buildHistogram ctx 0 l) = nodeTotals ctx l := by
  have hvl : ∀ i ∈ l, binOf ctx 0 i < ctx.n_bins := fun i _ => binOf_lt ctx hv 0 i
  rw [subtractionTotals, sumEntries_buildHistogram ctx 0 l hvl, nodeTotals]
  cases hh : ctx.hessians with
  | constant c => simp
  | perSample v =>
    simp only [HistEntry.mk.injEq, true_and]
    have : ∀ i ∈ l, histHessOf ctx i = hessOf ctx i := by
      intro i _
      rw [histHessOf, hessOf, hh]
    rw [List.map_congr_left this]

end Pygbm

namespace Pygbm

/-! ### Left plus right equals total -/

theorem histSplit_sums (ctx : SplittingContext) (f : Nat) (hist : List HistEntry)
    (tot : HistEntry) (hc : (sumEntries hist).count = tot.count ∨ hist = []) :
    (findHistogramSplitFromHist ctx f hist tot).gradientLeft +
        (findHistogramSplitFromHist ctx f hist tot).gradientRight = tot.sumGradients ∧
      (findHistogramSplitFromHist ctx f hist tot).hessianLeft +
        (findHistogramSplitFromHist ctx f hist tot).hessianRight = tot.sumHessians ∧
      (findHistogramSplitFromHist ctx f hist tot).nSamplesLeft +
        (findHistogramSplitFromHist ctx f hist tot).nSamplesRight = tot.count := by
  cases hb : firstArgmax SplitCandidate.gain (featureCandidates ctx f hist tot) with
  | none =>
    simp only [findHistogramSplitFromHist, hb]
    exact ⟨zero_add _, zero_add _, Nat.zero_add _⟩
  | some c =>
    have hcmem : c ∈ featureCandidates ctx f hist tot := firstArgmax_mem _ _ _ hb
    rw [featureCandidates] at hcmem
    rcases List.mem_filterMap.mp hcmem with ⟨b, _hbmem, hcb⟩
    obtain ⟨hcfields, -⟩ := candidateAt_some ctx hist tot b c hcb
    have hle : (prefixStats hist b).count ≤ tot.count := by
      rcases hc with hc | hnil
      · rw [← hc, prefixStats]
        exact sumEntries_take_count_le hist (b + 1)
      · subst hnil
        simp [prefixStats, sumEntries]
    simp only [findHistogramSplitFromHist, hb]
    by_cases hg : c.gain ≤ ctx.minGainToSplit
    · rw [if_pos hg]
      exact ⟨zero_add _, zero_add _, Nat.zero_add _⟩
    · rw [if_neg hg]
      subst hcfields
      refine ⟨?_, ?_, ?_⟩ <;> try simp
      all_goals first | omega | ring

theorem nodeSplit_sums (ctx : SplittingContext) (hists : List (List HistEntry))
    (tot : HistEntry)
    (hlen : ∀ H ∈ hists, (sumEntries H).count = tot.count) :
    (findNodeSplitFromHists ctx hists tot).gradientLeft +
        (findNodeSplitFromHists ctx hists tot).gradientRight = tot.sumGradients ∧
      (findNodeSplitFromHists ctx hists tot).hessianLeft +
        (findNodeSplitFromHists ctx hists tot).hessianRight = tot.sumHessians ∧
      (findNodeSplitFromHists ctx hists tot).nSamplesLeft +
        (findNodeSplitFromHists ctx hists tot).nSamplesRight = tot.count := by
  simp only [findNodeSplitFromHists]
  cases hb : firstArgmax SplitInfo.gain ((List.range ctx.X_binned.length).map
      (fun f => findHistogramSplitFromHist ctx f (hists.getD f []) tot)) with
  | none =>
    simp only [Option.getD_none]
    exact ⟨zero_add _, zero_add _, Nat.zero_add _⟩
  | some s =>
    simp only [Option.getD_some]
    have hs := firstArgmax_mem _ _ _ hb
    rcases List.mem_map.mp hs with ⟨f, _hf, hsf⟩
    have hcase : (sumEntries (hists.getD f [])).count = tot.count ∨ hists.getD f [] = [] := by
      rcases getD_mem_or_default hists f [] with hmem | hdef
      · exact Or.inl (hlen _ hmem)
      · exact Or.inr hdef
    rw [← hsf]
    exact histSplit_sums ctx f (hists.getD f []) tot hcase

end Pygbm

namespace Pygbm

theorem getD_map_range (u : Nat → β) (n f : Nat) (d : β) (hf : f < n) :
    ((List.range n).map u).getD f d = u f := by
  have hlen : f < ((List.range n).map u).length := by simpa using hf
  rw [List.getD_eq_getElem _ _ hlen]
  simp

theorem subtraction_eq_direct (ctx : SplittingContext) (pIdx lIdx rIdx : List Nat)
    (hv : ctxValid ctx) (hnf : 0 < ctx.X_binned.length)
    (hperm : pIdx.Perm (lIdx ++ rIdx)) :
    find_node_split_subtraction ctx lIdx (find_node_split ctx pIdx).2
        (find_node_split ctx rIdx).2 = find_node_split ctx lIdx := by
  have hhists := subtraction_hists_eq ctx pIdx lIdx rIdx hv hperm
  simp only [find_node_split_subtraction, find_node_split]
  rw [hhists, getD_map_range _ _ _ _ hnf, subtractionTotals_buildHistogram ctx lIdx hv]

theorem direct_hists_count (ctx : SplittingContext) (idx : List Nat)
    (hv : ctxValid ctx) :
    ∀ H ∈ (List.range ctx.X_binned.length).map (fun f => buildHistogram ctx f idx),
      (sumEntries H).count = (nodeTotals ctx idx).count := by
  intro H hH
  rcases List.mem_map.mp hH with ⟨f, _, rfl⟩
  rw [sumEntries_buildHistogram ctx f idx (fun i _ => binOf_lt ctx hv f i)]
  rfl

/-- C1: for every node sample set, in both constant- and non-constant-hessian
modes (the context's hessian mode is arbitrary here), the subtraction method
(`find_node_split_subtraction` on the parent's and the directly computed
sibling's histograms) returns exactly the same per-feature histograms, bin by
bin in count, gradient sum and hessian sum, and exactly the same `SplitInfo`
(gain, feature index, bin index, left/right gradient, hessian and count sums)
as the direct method (`find_node_split`) run on the same sample set; over the
exact rational model equality is exact, hence within any stated tolerance.
The hypotheses say the context is well formed, at least one feature exists,
and the parent's sample indices are a permutation of the two children's. -/
theorem claim1_subtraction_matches_direct (ctx : SplittingContext)
    (pIdx lIdx rIdx : List Nat) (hv : ctxValid ctx)
    (hnf : 0 < ctx.X_binned.length) (hperm : pIdx.Perm (lIdx ++ rIdx)) :
    find_node_split_subtraction ctx lIdx (find_node_split ctx pIdx).2
        (find_node_split ctx rIdx).2 = find_node_split ctx lIdx :=
  subtraction_eq_direct ctx pIdx lIdx rIdx hv hnf hperm

/-- Witness for C1 at a concrete context, once in per-sample-hessian mode and
once in constant-hessian mode. -/
theorem claim1_witness :
    (ctxValid ⟨[[0, 1, 2]], 3, [3], [1, 2, 3], Hessians.perSample [1, 1, 2],
        0, 0, 1, 0, true⟩ ∧
      0 < ([[0, 1, 2]] : List (List Nat)).length ∧
      ([0, 1, 2] : List Nat).Perm ([0, 2] ++ [1])) ∧
    find_node_split_subtraction
        ⟨[[0, 1, 2]], 3, [3], [1, 2, 3], Hessians.perSample [1, 1, 2], 0, 0, 1, 0, true⟩
        [0, 2]
        (find_node_split
          ⟨[[0, 1, 2]], 3, [3], [1, 2, 3], Hessians.perSample [1, 1, 2], 0, 0, 1, 0, true⟩
          [0, 1, 2]).2
        (find_node_split
          ⟨[[0, 1, 2]], 3, [3], [1, 2, 3], Hessians.perSample [1, 1, 2], 0, 0, 1, 0, true⟩
          [1]).2 =
      find_node_split
        ⟨[[0, 1, 2]], 3, [3], [1, 2, 3], Hessians.perSample [1, 1, 2], 0, 0, 1, 0, true⟩
        [0, 2] ∧
    find_node_split_subtraction
        ⟨[[0, 1, 2]], 3, [3], [1, 2, 3], Hessians.constant 1, 0, 0, 1, 0, true⟩
        [0, 2]
        (find_node_split
          ⟨[[0, 1, 2]], 3, [3], [1, 2, 3], Hessians.constant 1, 0, 0, 1, 0, true⟩
          [0, 1, 2]).2
        (find_node_split
          ⟨[[0, 1, 2]], 3, [3], [1, 2, 3], Hessians.constant 1, 0, 0, 1, 0, true⟩
          [1]).2 =
      find_node_split
        ⟨[[0, 1, 2]], 3, [3], [1, 2, 3], Hessians.constant 1, 0, 0, 1, 0, true⟩
        [0, 2] :=
  ⟨⟨⟨by decide, by decide⟩, by decide, by decide⟩,
   claim1_subtraction_matches_direct _ [0, 1, 2] [0, 2] [1]
     ⟨by decide, by decide⟩ (by decide) (by decide),
   claim1_subtraction_matches_direct _ [0, 1, 2] [0, 2] [1]
     ⟨by decide, by decide⟩ (by decide) (by decide)⟩

/-- C3: for every `SplitInfo` produced for a node, by direct search or by the
subtraction method, left plus right gradient sums equal the node's total
gradient sum, left plus right hessian sums equal the node's total hessian sum
(which in constant-hessian mode is the node's sample count times the scalar
hessian, stated as the middle conjunct), and left plus right sample counts
equal the node's sample count; equalities are exact in the rational model. -/
theorem claim3_splitinfo_sums (ctx : SplittingContext)
    (idx pIdx lIdx rIdx : List Nat) (hv : ctxValid ctx)
    (hnf : 0 < ctx.X_binned.length) (hperm : pIdx.Perm (lIdx ++ rIdx)) :
    ((find_node_split ctx idx).1.gradientLeft +
        (find_node_split ctx idx).1.gradientRight = (idx.map (gradOf ctx)).sum ∧
      (find_node_split ctx idx).1.hessianLeft +
        (find_node_split ctx idx).1.hessianRight = (nodeTotals ctx idx).sumHessians ∧
      (find_node_split ctx idx).1.nSamplesLeft +
        (find_node_split ctx idx).1.nSamplesRight = idx.length) ∧
    (∀ c, ctx.hessians = Hessians.constant c →
      (nodeTotals ctx idx).sumHessians = (idx.length : ℚ) * c) ∧
    ((find_node_split_subtraction ctx lIdx (find_node_split ctx pIdx).2
          (find_node_split ctx rIdx).2).1.gradientLeft +
        (find_node_split_subtraction ctx lIdx (find_node_split ctx pIdx).2
          (find_node_split ctx rIdx).2).1.gradientRight = (lIdx.map (gradOf ctx)).sum ∧
      (find_node_split_subtraction ctx lIdx (find_node_split ctx pIdx).2
          (find_node_split ctx rIdx).2).1.hessianLeft +
        (find_node_split_subtraction ctx lIdx (find_node_split ctx pIdx).2
          (find_node_split ctx rIdx).2).1.hessianRight =
        (nodeTotals ctx lIdx).sumHessians ∧
      (find_node_split_subtraction ctx lIdx (find_node_split ctx pIdx).2
          (find_node_split ctx rIdx).2).1.nSamplesLeft +
        (find_node_split_subtraction ctx lIdx (find_node_split ctx pIdx).2
          (find_node_split ctx rIdx).2).1.nSamplesRight = lIdx.length) := by
  refine ⟨?_, ?_, ?_⟩
  · have h := nodeSplit_sums ctx
      ((List.range ctx.X_binned.length).map (fun f => buildHistogram ctx f idx))
      (nodeTotals ctx idx) (direct_hists_count ctx idx hv)
    exact ⟨h.1, h.2.1, h.2.2⟩
  · intro c hc
    simp [nodeTotals, hc]
  · rw [subtraction_eq_direct ctx pIdx lIdx rIdx hv hnf hperm]
    have h := nodeSplit_sums ctx
      ((List.range ctx.X_binned.length).map (fun f => buildHistogram ctx f lIdx))
      (nodeTotals ctx lIdx) (direct_hists_count ctx lIdx hv)
    exact ⟨h.1, h.2.1, h.2.2⟩

/-- Witness for C3 at a concrete constant-hessian context. -/
theorem claim3_witness :
    (ctxValid ⟨[[0, 1, 2]], 3, [3], [1, 2, 3], Hessians.constant 1, 0, 0, 1, 0, true⟩ ∧
      0 < ([[0, 1, 2]] : List (List Nat)).length ∧
      ([0, 1, 2] : List Nat).Perm ([0, 2] ++ [1])) ∧
    ((find_node_split ⟨[[0, 1, 2]], 3, [3], [1, 2, 3], Hessians.constant 1, 0, 0, 1, 0, true⟩
          [0, 1, 2]).1.gradientLeft +
        (find_node_split ⟨[[0, 1, 2]], 3, [3], [1, 2, 3], Hessians.constant 1, 0, 0, 1, 0, true⟩
          [0, 1, 2]).1.gradientRight =
        (([0, 1, 2] : List Nat).map
          (gradOf ⟨[[0, 1, 2]], 3, [3], [1, 2, 3], Hessians.constant 1, 0, 0, 1, 0, true⟩)).sum ∧
      (find_node_split ⟨[[0, 1, 2]], 3, [3], [1, 2, 3], Hessians.constant 1, 0, 0, 1, 0, true⟩
          [0, 1, 2]).1.hessianLeft +
        (find_node_split ⟨[[0, 1, 2]], 3, [3], [1, 2, 3], Hessians.constant 1, 0, 0, 1, 0, true⟩
          [0, 1, 2]).1.hessianRight =
        (nodeTotals ⟨[[0, 1, 2]], 3, [3], [1, 2, 3], Hessians.constant 1, 0, 0, 1, 0, true⟩
          [0, 1, 2]).sumHessians ∧
      (find_node_split ⟨[[0, 1, 2]], 3, [3], [1, 2, 3], Hessians.constant 1, 0, 0, 1, 0, true⟩
          [0, 1, 2]).1.nSamplesLeft +
        (find_node_split ⟨[[0, 1, 2]], 3, [3], [1, 2, 3], Hessians.constant 1, 0, 0, 1, 0, true⟩
          [0, 1, 2]).1.nSamplesRight = ([0, 1, 2] : List Nat).length) :=
  ⟨⟨⟨by decide, by decide⟩, by decide, by decide⟩,
   (claim3_splitinfo_sums _ [0, 1, 2] [0, 1, 2] [0, 2] [1]
     ⟨by decide, by decide⟩ (by decide) (by decide)).1⟩

/-- C4: for every well-formed context and node sample set, and for every
feature, summing the node's direct-accumulation histogram over all bins for
that feature yields exactly the node's sample count, its gradient sum, and
its hessian sum (or the `0` sentinel under constant-hessian mode); and these
per-feature totals are identical across every feature's histogram of the
same node. -/
theorem claim4_histogram_totals (ctx : SplittingContext) (idx : List Nat)
    (hv : ctxValid ctx) :
    (∀ f, f < ctx.X_binned.length →
      sumEntries ((find_node_split ctx idx).2.getD f []) =
        ⟨idx.length, (idx.map (gradOf ctx)).sum,
         match ctx.hessians with
         | Hessians.constant _ => 0
         | Hessians.perSample _ => (idx.map (hessOf ctx)).sum⟩) ∧
    (∀ f1 f2, f1 < ctx.X_binned.length → f2 < ctx.X_binned.length →
      sumEntries ((find_node_split ctx idx).2.getD f1 []) =
        sumEntries ((find_node_split ctx idx).2.getD f2 [])) := by
  have hmain : ∀ f, f < ctx.X_binned.length →
      sumEntries ((find_node_split ctx idx).2.getD f []) =
        ⟨idx.length, (idx.map (gradOf ctx)).sum,
         match ctx.hessians with
         | Hessians.constant _ => 0
         | Hessians.perSample _ => (idx.map (hessOf ctx)).sum⟩ := by
    intro f hf
    have h2 : (find_node_split ctx idx).2 =
        (List.range ctx.X_binned.length).map (fun f => buildHistogram ctx f idx) := rfl
    rw [h2, getD_map_range _ _ _ _ hf,
      sumEntries_buildHistogram ctx f idx (fun i _ => binOf_lt ctx hv f i)]
    cases hh : ctx.hessians with
    | constant c =>
      simp only [HistEntry.mk.injEq, true_and]
      rw [sum_map_const_on idx (histHessOf ctx) 0 (fun i _ => by rw [histHessOf, hh]),
        mul_zero]
    | perSample v =>
      simp only [HistEntry.mk.injEq, true_and]
      exact congrArg List.sum
        (List.map_congr_left (fun i _ => by rw [histHessOf, hessOf, hh]))
  refine ⟨hmain, fun f1 f2 h1 h2 => ?_⟩
  rw [hmain f1 h1, hmain f2 h2]

/-- Witness for C4 at a concrete per-sample-hessian context. -/
theorem claim4_witness :
    ctxValid ⟨[[0, 1, 2], [2, 0, 1]], 3, [3, 3], [1, 2, 3],
        Hessians.perSample [1, 1, 2], 0, 0, 1, 0, true⟩ ∧
    sumEntries ((find_node_split
        ⟨[[0, 1, 2], [2, 0, 1]], 3, [3, 3], [1, 2, 3],
          Hessians.perSample [1, 1, 2], 0, 0, 1, 0, true⟩ [0, 1, 2]).2.getD 1 []) =
      ⟨([0, 1, 2] : List Nat).length,
       (([0, 1, 2] : List Nat).map (gradOf
         ⟨[[0, 1, 2], [2, 0, 1]], 3, [3, 3], [1, 2, 3],
          Hessians.perSample [1, 1, 2], 0, 0, 1, 0, true⟩)).sum,
       match (⟨[[0, 1, 2], [2, 0, 1]], 3, [3, 3], [1, 2, 3],
          Hessians.perSample [1, 1, 2], 0, 0, 1, 0, true⟩ : SplittingContext).hessians with
       | Hessians.constant _ => 0
       | Hessians.perSample _ =>
         (([0, 1, 2] : List Nat).map (hessOf
           ⟨[[0, 1, 2], [2, 0, 1]], 3, [3, 3], [1, 2, 3],
            Hessians.perSample [1, 1, 2], 0, 0, 1, 0, true⟩)).sum⟩ :=
  ⟨⟨by decide, by decide⟩,
   (claim4_histogram_totals _ [0, 1, 2] ⟨by decide, by decide⟩).1 1 (by decide)⟩

end Pygbm

namespace Pygbm

/-! ### Parallel and sequential partition agreement -/

theorem concat_chunksOfAux (c fuel : Nat) (l : List α) (hf : l.length ≤ fuel) :
    concatLists (chunksOfAux c fuel l) = l := by
  induction fuel generalizing l with
  | zero =>
    cases l with
    | nil => rfl
    | cons x xs => simp at hf
  | succ m ih =>
    cases l with
    | nil => rfl
    | cons x xs =>
      have hdrop : (xs.drop c).length ≤ m := by
        simp only [List.length_drop]
        simp only [List.length_cons] at hf
        omega
      simp only [chunksOfAux, concatLists]
      rw [ih (xs.drop c) hdrop, List.cons_append, List.take_append_drop]

theorem concat_chunksOf (c : Nat) (l : List α) :
    concatLists (chunksOf c l) = l :=
  concat_chunksOfAux c l.length l (le_refl _)

theorem filter_concatLists (p : α → Bool) (ls : List (List α)) :
    (concatLists ls).filter p = concatLists (ls.map (List.filter p)) := by
  induction ls with
  | nil => rfl
  | cons a t ih => simp only [concatLists, List.filter_append, List.map_cons, ih]

theorem parallel_eq_single (ctx : SplittingContext) (si : SplitInfo) (idx : List Nat) :
    split_indices_parallel ctx si idx = split_indices_single_thread ctx si idx := by
  simp only [split_indices_parallel, split_indices_single_thread,
    List.partition_eq_filter_filter, List.map_map]
  refine Prod.ext ?_ ?_
  · show concatLists ((chunksOf (idx.length / 4) idx).map
        (Prod.fst ∘ fun ch => (ch.filter (goesLeft ctx si), ch.filter (fun a => !goesLeft ctx si a)))) =
      idx.filter (goesLeft ctx si)
    have hcongr : (chunksOf (idx.length / 4) idx).map
        (Prod.fst ∘ fun ch => (ch.filter (goesLeft ctx si), ch.filter (fun a => !goesLeft ctx si a))) =
        (chunksOf (idx.length / 4) idx).map (List.filter (goesLeft ctx si)) :=
      List.map_congr_left (fun ch _ => rfl)
    rw [hcongr, ← filter_concatLists, concat_chunksOf]
  · show concatLists ((chunksOf (idx.length / 4) idx).map
        (Prod.snd ∘ fun ch => (ch.filter (goesLeft ctx si), ch.filter (fun a => !goesLeft ctx si a)))) =
      idx.filter (fun a => !goesLeft ctx si a)
    have hcongr : (chunksOf (idx.length / 4) idx).map
        (Prod.snd ∘ fun ch => (ch.filter (goesLeft ctx si), ch.filter (fun a => !goesLeft ctx si a))) =
        (chunksOf (idx.length / 4) idx).map (List.filter (fun a => !goesLeft ctx si a)) :=
      List.map_congr_left (fun ch _ => rfl)
    rw [hcongr, ← filter_concatLists, concat_chunksOf]

/-- C5: for every context, chosen split and node sample-index range, the
parallel partitioner (`split_indices_parallel`, chunked classify-then-merge)
and the sequential partitioner (`split_indices_single_thread`, single-pass
scan) produce exactly the same left-side membership set and the same
right-side membership set. -/
theorem claim5_partitioners_agree (ctx : SplittingContext) (si : SplitInfo)
    (idx : List Nat) (x : Nat) :
    (x ∈ (split_indices_parallel ctx si idx).1 ↔
      x ∈ (split_indices_single_thread ctx si idx).1) ∧
    (x ∈ (split_indices_parallel ctx si idx).2 ↔
      x ∈ (split_indices_single_thread ctx si idx).2) :=
  ⟨by rw [parallel_eq_single], by rw [parallel_eq_single]⟩

end Pygbm

namespace Pygbm

/-! ### Sentinel behavior of the split search -/

theorem getD_replicate (n : Nat) (a : α) (i : Nat) (d : α) (h : i < n) :
    (List.replicate n a).getD i d = a := by
  induction n generalizing i with
  | zero => cases h
  | succ m ih =>
    cases i with
    | zero => rfl
    | succ j => exact ih j (by omega)

theorem half_sq_term (x g h : ℚ) :
    1 / 2 * (x * g) ^ 2 / (x * h + 0) = x * (1 / 2 * g ^ 2 / h) := by
  rw [add_zero]
  by_cases hx : x = 0
  · simp [hx]
  · by_cases hh : h = 0
    · simp [hh]
    · field_simp
      ring

theorem gainOf_pure (a nn g h : ℚ) :
    gainOf 0 (a * g) (a * h) (nn * g - a * g) (nn * h - a * h) (nn * g) (nn * h) = 0 := by
  have h1 : nn * g - a * g = (nn - a) * g := by ring
  have h2 : nn * h - a * h = (nn - a) * h := by ring
  rw [gainOf, h1, h2, half_sq_term, half_sq_term, half_sq_term]
  ring

theorem find_histogram_split_sentinel (ctx : SplittingContext) (f : Nat)
    (idx : List Nat)
    (hall : ∀ c ∈ featureCandidates ctx f (buildHistogram ctx f idx)
      (nodeTotals ctx idx), c.gain ≤ ctx.minGainToSplit) :
    (find_histogram_split ctx f idx).1.gain = -1 := by
  have h := sentinel_of_all_le ctx f (buildHistogram ctx f idx) (nodeTotals ctx idx) hall
  show (findHistogramSplitFromHist ctx f (buildHistogram ctx f idx)
    (nodeTotals ctx idx)).gain = -1
  rw [h]
  rfl

theorem find_node_split_sentinel (ctx : SplittingContext) (idx : List Nat)
    (hall : ∀ f, ∀ c ∈ featureCandidates ctx f (buildHistogram ctx f idx)
      (nodeTotals ctx idx), c.gain ≤ ctx.minGainToSplit) :
    (find_node_split ctx idx).1.gain = -1 := by
  show (findNodeSplitFromHists ctx
    ((List.range ctx.X_binned.length).map (fun f => buildHistogram ctx f idx))
    (nodeTotals ctx idx)).gain = -1
  simp only [findNodeSplitFromHists]
  have hinfo : ∀ f ∈ List.range ctx.X_binned.length,
      findHistogramSplitFromHist ctx f
        (((List.range ctx.X_binned.length).map
          (fun f => buildHistogram ctx f idx)).getD f [])
        (nodeTotals ctx idx) = sentinelInfo f (nodeTotals ctx idx) := by
    intro f hf
    rw [getD_map_range _ _ _ _ (List.mem_range.mp hf)]
    exact sentinel_of_all_le ctx f _ _ (hall f)
  cases hb : firstArgmax SplitInfo.gain ((List.range ctx.X_binned.length).map
      (fun f => findHistogramSplitFromHist ctx f
        (((List.range ctx.X_binned.length).map
          (fun f => buildHistogram ctx f idx)).getD f [])
        (nodeTotals ctx idx))) with
  | none => simp only [Option.getD_none]; rfl
  | some s =>
    simp only [Option.getD_some]
    have hs := firstArgmax_mem _ _ _ hb
    rcases List.mem_map.mp hs with ⟨f, hf, hsf⟩
    rw [← hsf, hinfo f hf]
    rfl

theorem pure_node_sentinel (ctx : SplittingContext) (f n : Nat) (g h : ℚ)
    (hv : ctxValid ctx) (hl2 : ctx.l2Regularization = 0)
    (hmg : ctx.minGainToSplit = 0)
    (hgr : ctx.allGradients = List.replicate n g)
    (hhe : ctx.hessians = Hessians.perSample (List.replicate n h)) :
    (find_histogram_split ctx f (List.range n)).1.gain = -1 := by
  apply find_histogram_split_sentinel
  intro c hc
  rw [featureCandidates] at hc
  rcases List.mem_filterMap.mp hc with ⟨b, _, hcb⟩
  obtain ⟨hc_eq, -⟩ := candidateAt_some ctx _ _ b c hcb
  rw [hmg]
  subst hc_eq
  show gainOf ctx.l2Regularization
    (prefixStats (buildHistogram ctx f (List.range n)) b).sumGradients
    (leftHess ctx (prefixStats (buildHistogram ctx f (List.range n)) b))
    ((nodeTotals ctx (List.range n)).sumGradients -
      (prefixStats (buildHistogram ctx f (List.range n)) b).sumGradients)
    ((nodeTotals ctx (List.range n)).sumHessians -
      leftHess ctx (prefixStats (buildHistogram ctx f (List.range n)) b))
    (nodeTotals ctx (List.range n)).sumGradients
    (nodeTotals ctx (List.range n)).sumHessians ≤ 0
  have hvl : ∀ i ∈ List.range n, binOf ctx f i < ctx.n_bins :=
    fun i _ => binOf_lt ctx hv f i
  have hsubmem : ∀ i ∈ (List.range n).filter
      (fun i => decide (binOf ctx f i < b + 1)), i < n :=
    fun i hi => List.mem_range.mp (List.mem_filter.mp hi).1
  have hg1 : ∀ i ∈ (List.range n).filter (fun i => decide (binOf ctx f i < b + 1)),
      gradOf ctx i = g := fun i hi => by
    rw [gradOf, hgr, getD_replicate _ _ _ _ (hsubmem i hi)]
  have hh1 : ∀ i ∈ (List.range n).filter (fun i => decide (binOf ctx f i < b + 1)),
      histHessOf ctx i = h := fun i hi => by
    rw [histHessOf, hhe]
    show (List.replicate n h).getD i 0 = h
    exact getD_replicate _ _ _ _ (hsubmem i hi)
  have hpre : prefixStats (buildHistogram ctx f (List.range n)) b =
      ⟨((List.range n).filter (fun i => decide (binOf ctx f i < b + 1))).length,
       (((List.range n).filter (fun i => decide (binOf ctx f i < b + 1))).length : ℚ) * g,
       (((List.range n).filter (fun i => decide (binOf ctx f i < b + 1))).length : ℚ) * h⟩ := by
    rw [prefixStats, sumEntries_take_buildHistogram ctx f (List.range n) (b + 1) hvl,
      sum_map_const_on _ _ g hg1, sum_map_const_on _ _ h hh1]
  have htot : nodeTotals ctx (List.range n) = ⟨n, (n : ℚ) * g, (n : ℚ) * h⟩ := by
    rw [nodeTotals, hhe]
    have hgall : ∀ i ∈ List.range n, gradOf ctx i = g := fun i hi => by
      rw [gradOf, hgr, getD_replicate _ _ _ _ (List.mem_range.mp hi)]
    have hhall : ∀ i ∈ List.range n, hessOf ctx i = h := fun i hi => by
      rw [hessOf, hhe]
      show (List.replicate n h).getD i 0 = h
      exact getD_replicate _ _ _ _ (List.mem_range.mp hi)
    rw [sum_map_const_on _ _ g hgall, sum_map_const_on _ _ h hhall, List.length_range]
  have hlh : leftHess ctx (prefixStats (buildHistogram ctx f (List.range n)) b) =
      (prefixStats (buildHistogram ctx f (List.range n)) b).sumHessians := by
    rw [leftHess, hhe]
  rw [hl2, hlh, hpre, htot]
  show gainOf 0
    ((((List.range n).filter (fun i => decide (binOf ctx f i < b + 1))).length : ℚ) * g)
    ((((List.range n).filter (fun i => decide (binOf ctx f i < b + 1))).length : ℚ) * h)
    ((n : ℚ) * g -
      (((List.range n).filter (fun i => decide (binOf ctx f i < b + 1))).length : ℚ) * g)
    ((n : ℚ) * h -
      (((List.range n).filter (fun i => decide (binOf ctx f i < b + 1))).length : ℚ) * h)
    ((n : ℚ) * g) ((n : ℚ) * h) ≤ 0
  rw [gainOf_pure]

/-- C2: the split search returns the sentinel `SplitInfo` with the
distinguished negative gain `-1` whenever the best achievable gain does not
strictly exceed `min_gain_to_split` (so the node is not split on an exact
tie): first conjunct for the per-feature search, second conjunct for the
node-level search over all features; and in particular (third conjunct) a
pure node, with all gradients equal and all hessians equal across samples,
searched with `min_gain_to_split = 0` and no L2 regularization, yields the
sentinel rather than a zero-gain split. -/
theorem claim2_sentinel_on_low_gain :
    (∀ (ctx : SplittingContext) (f : Nat) (idx : List Nat),
      (∀ c ∈ featureCandidates ctx f (buildHistogram ctx f idx)
        (nodeTotals ctx idx), c.gain ≤ ctx.minGainToSplit) →
      (find_histogram_split ctx f idx).1.gain = -1) ∧
    (∀ (ctx : SplittingContext) (idx : List Nat),
      (∀ f, ∀ c ∈ featureCandidates ctx f (buildHistogram ctx f idx)
        (nodeTotals ctx idx), c.gain ≤ ctx.minGainToSplit) →
      (find_node_split ctx idx).1.gain = -1) ∧
    (∀ (ctx : SplittingContext) (f n : Nat) (g h : ℚ),
      ctxValid ctx → ctx.l2Regularization = 0 → ctx.minGainToSplit = 0 →
      ctx.allGradients = List.replicate n g →
      ctx.hessians = Hessians.perSample (List.replicate n h) →
      (find_histogram_split ctx f (List.range n)).1.gain = -1) :=
  ⟨find_histogram_split_sentinel, find_node_split_sentinel, pure_node_sentinel⟩

/-- Witness for C2: a concrete pure node (three samples, gradients all `1`,
per-sample hessians all `1`, `min_gain_to_split = 0`) is not split. -/
theorem claim2_witness :
    (ctxValid ⟨[[0, 1, 2]], 3, [3], List.replicate 3 1,
        Hessians.perSample (List.replicate 3 1), 0, 0, 1, 0, true⟩ ∧
      (⟨[[0, 1, 2]], 3, [3], List.replicate 3 1,
        Hessians.perSample (List.replicate 3 1), 0, 0, 1, 0, true⟩ :
          SplittingContext).l2Regularization = 0 ∧
      (⟨[[0, 1, 2]], 3, [3], List.replicate 3 1,
        Hessians.perSample (List.replicate 3 1), 0, 0, 1, 0, true⟩ :
          SplittingContext).minGainToSplit = 0 ∧
      (⟨[[0, 1, 2]], 3, [3], List.replicate 3 1,
        Hessians.perSample (List.replicate 3 1), 0, 0, 1, 0, true⟩ :
          SplittingContext).allGradients = List.replicate 3 1 ∧
      (⟨[[0, 1, 2]], 3, [3], List.replicate 3 1,
        Hessians.perSample (List.replicate 3 1), 0, 0, 1, 0, true⟩ :
          SplittingContext).hessians = Hessians.perSample (List.replicate 3 1)) ∧
    (find_histogram_split
      ⟨[[0, 1, 2]], 3, [3], List.replicate 3 1,
        Hessians.perSample (List.replicate 3 1), 0, 0, 1, 0, true⟩
      0 (List.range 3)).1.gain = -1 :=
  ⟨⟨⟨by decide, by decide⟩, rfl, rfl, rfl, rfl⟩,
   claim2_sentinel_on_low_gain.2.2 _ 0 3 1 1 ⟨by decide, by decide⟩ rfl rfl rfl rfl⟩

end Pygbm

namespace Pygbm

/-- Counterexample to C6 as stated: the claim quantifies over arbitrary
gradients, but with all gradients equal to `1` (and the same concrete binned
matrix, constant hessian `1`) the node is pure, so the search returns the
no-split sentinel with gain `-1` instead of a split on feature `1` at bin
`3` with nonnegative gain. -/
theorem claim6_counterexample :
    (find_node_split
      ⟨[[0, 0, 0, 0, 0, 0, 0, 0, 0, 0], [0, 3, 4, 0, 0, 0, 0, 4, 0, 4]], 5, [5, 5],
        [1, 1, 1, 1, 1, 1, 1, 1, 1, 1], Hessians.constant 1, 0, 1 / 1000, 1, 0, true⟩
      (List.range 10)).1.gain = -1 ∧
    ¬ ((find_node_split
      ⟨[[0, 0, 0, 0, 0, 0, 0, 0, 0, 0], [0, 3, 4, 0, 0, 0, 0, 4, 0, 4]], 5, [5, 5],
        [1, 1, 1, 1, 1, 1, 1, 1, 1, 1], Hessians.constant 1, 0, 1 / 1000, 1, 0, true⟩
      (List.range 10)).1.featureIdx = 1 ∧
       (find_node_split
      ⟨[[0, 0, 0, 0, 0, 0, 0, 0, 0, 0], [0, 3, 4, 0, 0, 0, 0, 4, 0, 4]], 5, [5, 5],
        [1, 1, 1, 1, 1, 1, 1, 1, 1, 1], Hessians.constant 1, 0, 1 / 1000, 1, 0, true⟩
      (List.range 10)).1.binIdx = 3 ∧
       0 ≤ (find_node_split
      ⟨[[0, 0, 0, 0, 0, 0, 0, 0, 0, 0], [0, 3, 4, 0, 0, 0, 0, 4, 0, 4]], 5, [5, 5],
        [1, 1, 1, 1, 1, 1, 1, 1, 1, 1], Hessians.constant 1, 0, 1 / 1000, 1, 0, true⟩
      (List.range 10)).1.gain) := by
  norm_num [find_node_split, findNodeSplitFromHists, findHistogramSplitFromHist,
    featureCandidates, candidateAt, buildHistogram, histAdd, binOf, gradOf,
    histHessOf, nodeTotals, leftHess, gainOf, prefixStats, sumEntries,
    firstArgmax, sentinelInfo, hessOf, List.range_succ,
    List.filterMap_cons, Option.getD, List.getD, List.take,
    split_indices_parallel, split_indices_single_thread, chunksOf, chunksOfAux,
    concatLists, goesLeft, List.partition_eq_filter_filter, List.filter_cons,
    List.drop, List.length_cons]

/-- C6 (amended): for the concrete 10-sample input whose second binned
column is `[0,3,4,0,0,0,0,4,0,4]` among 2 features, with the separating
gradients `(-1,-1,1,-1,-1,-1,-1,1,-1,1)` (the original "arbitrary gradients"
fails: all-equal gradients yield the no-split sentinel, see the
counterexample) and constant hessian `1`, the best split found is on feature
index `1` at bin index `3` with gain `≥ 0`; both partitioners yield left set
`{0,1,3,4,5,6,8}` and right set `{2,7,9}`, the reordered range is the left
block followed by the right block (so the split position is the size of the
left sub-range, here 7), and the returned side sizes equal the `SplitInfo`
sample counts. -/
theorem claim6_amended_best_split :
    (find_node_split
      ⟨[[0, 0, 0, 0, 0, 0, 0, 0, 0, 0], [0, 3, 4, 0, 0, 0, 0, 4, 0, 4]], 5, [5, 5],
        [-1, -1, 1, -1, -1, -1, -1, 1, -1, 1], Hessians.constant 1, 0, 1 / 1000, 1, 0, true⟩
      (List.range 10)).1.featureIdx = 1 ∧
    (find_node_split
      ⟨[[0, 0, 0, 0, 0, 0, 0, 0, 0, 0], [0, 3, 4, 0, 0, 0, 0, 4, 0, 4]], 5, [5, 5],
        [-1, -1, 1, -1, -1, -1, -1, 1, -1, 1], Hessians.constant 1, 0, 1 / 1000, 1, 0, true⟩
      (List.range 10)).1.binIdx = 3 ∧
    0 ≤ (find_node_split
      ⟨[[0, 0, 0, 0, 0, 0, 0, 0, 0, 0], [0, 3, 4, 0, 0, 0, 0, 4, 0, 4]], 5, [5, 5],
        [-1, -1, 1, -1, -1, -1, -1, 1, -1, 1], Hessians.constant 1, 0, 1 / 1000, 1, 0, true⟩
      (List.range 10)).1.gain ∧
    split_indices_parallel
      ⟨[[0, 0, 0, 0, 0, 0, 0, 0, 0, 0], [0, 3, 4, 0, 0, 0, 0, 4, 0, 4]], 5, [5, 5],
        [-1, -1, 1, -1, -1, -1, -1, 1, -1, 1], Hessians.constant 1, 0, 1 / 1000, 1, 0, true⟩
      (find_node_split
      ⟨[[0, 0, 0, 0, 0, 0, 0, 0, 0, 0], [0, 3, 4, 0, 0, 0, 0, 4, 0, 4]], 5, [5, 5],
        [-1, -1, 1, -1, -1, -1, -1, 1, -1, 1], Hessians.constant 1, 0, 1 / 1000, 1, 0, true⟩
      (List.range 10)).1
      (List.range 10) = ([0, 1, 3, 4, 5, 6, 8], [2, 7, 9]) ∧
    split_indices_single_thread
      ⟨[[0, 0, 0, 0, 0, 0, 0, 0, 0, 0], [0, 3, 4, 0, 0, 0, 0, 4, 0, 4]], 5, [5, 5],
        [-1, -1, 1, -1, -1, -1, -1, 1, -1, 1], Hessians.constant 1, 0, 1 / 1000, 1, 0, true⟩
      (find_node_split
      ⟨[[0, 0, 0, 0, 0, 0, 0, 0, 0, 0], [0, 3, 4, 0, 0, 0, 0, 4, 0, 4]], 5, [5, 5],
        [-1, -1, 1, -1, -1, -1, -1, 1, -1, 1], Hessians.constant 1, 0, 1 / 1000, 1, 0, true⟩
      (List.range 10)).1
      (List.range 10) = ([0, 1, 3, 4, 5, 6, 8], [2, 7, 9]) ∧
    (split_indices_parallel
      ⟨[[0, 0, 0, 0, 0, 0, 0, 0, 0, 0], [0, 3, 4, 0, 0, 0, 0, 4, 0, 4]], 5, [5, 5],
        [-1, -1, 1, -1, -1, -1, -1, 1, -1, 1], Hessians.constant 1, 0, 1 / 1000, 1, 0, true⟩
      (find_node_split
      ⟨[[0, 0, 0, 0, 0, 0, 0, 0, 0, 0], [0, 3, 4, 0, 0, 0, 0, 4, 0, 4]], 5, [5, 5],
        [-1, -1, 1, -1, -1, -1, -1, 1, -1, 1], Hessians.constant 1, 0, 1 / 1000, 1, 0, true⟩
      (List.range 10)).1
      (List.range 10)).1.length = (find_node_split
      ⟨[[0, 0, 0, 0, 0, 0, 0, 0, 0, 0], [0, 3, 4, 0, 0, 0, 0, 4, 0, 4]], 5, [5, 5],
        [-1, -1, 1, -1, -1, -1, -1, 1, -1, 1], Hessians.constant 1, 0, 1 / 1000, 1, 0, true⟩
      (List.range 10)).1.nSamplesLeft ∧
    (split_indices_parallel
      ⟨[[0, 0, 0, 0, 0, 0, 0, 0, 0, 0], [0, 3, 4, 0, 0, 0, 0, 4, 0, 4]], 5, [5, 5],
        [-1, -1, 1, -1, -1, -1, -1, 1, -1, 1], Hessians.constant 1, 0, 1 / 1000, 1, 0, true⟩
      (find_node_split
      ⟨[[0, 0, 0, 0, 0, 0, 0, 0, 0, 0], [0, 3, 4, 0, 0, 0, 0, 4, 0, 4]], 5, [5, 5],
        [-1, -1, 1, -1, -1, -1, -1, 1, -1, 1], Hessians.constant 1, 0, 1 / 1000, 1, 0, true⟩
      (List.range 10)).1
      (List.range 10)).2.length = (find_node_split
      ⟨[[0, 0, 0, 0, 0, 0, 0, 0, 0, 0], [0, 3, 4, 0, 0, 0, 0, 4, 0, 4]], 5, [5, 5],
        [-1, -1, 1, -1, -1, -1, -1, 1, -1, 1], Hessians.constant 1, 0, 1 / 1000, 1, 0, true⟩
      (List.range 10)).1.nSamplesRight := by
  norm_num [find_node_split, findNodeSplitFromHists, findHistogramSplitFromHist,
    featureCandidates, candidateAt, buildHistogram, histAdd, binOf, gradOf,
    histHessOf, nodeTotals, leftHess, gainOf, prefixStats, sumEntries,
    firstArgmax, sentinelInfo, hessOf, List.range_succ,
    List.filterMap_cons, Option.getD, List.getD, List.take,
    split_indices_parallel, split_indices_single_thread, chunksOf, chunksOfAux,
    concatLists, goesLeft, List.partition_eq_filter_filter, List.filter_cons,
    List.drop, List.length_cons]

end Pygbm

namespace GradientBoosting

/-- Counterexample to C8 as stated: for a machine configured with
`l2_regularization = 1`, the `TreeGrower` call in `fit` does not pass the
machine's L2 regularization (nor any minimum-samples / minimum-hessian /
minimum-gain parameter): the corresponding keyword slots are `none`
(`gradient_boosting.py` lines 89-92). -/
theorem claim8_counterexample :
    (fitTreeGrowerKwargs ⟨1 / 10, 100, 31, none, 1, 256, 5, some (1 / 10),
        some (1 / 10000000)⟩).l2_regularization = none ∧
    ¬ ((fitTreeGrowerKwargs ⟨1 / 10, 100, 31, none, 1, 256, 5, some (1 / 10),
          some (1 / 10000000)⟩).l2_regularization =
        some (⟨1 / 10, 100, 31, none, 1, 256, 5, some (1 / 10),
          some (1 / 10000000)⟩ : GBMConfig).l2_regularization) := by
  constructor
  · rfl
  · intro h
    simp only [fitTreeGrowerKwargs] at h
    cases h

/-- C8 (amended): every `TreeGrower` constructed during `fit` receives the
machine's configured bin count, max leaf nodes, max depth, and learning rate
(as `shrinkage`) — but neither the L2 regularization nor the minimum samples
per leaf, minimum hessian to split, or minimum gain to split: those keywords
are not passed at all (the machine does not even expose the three minimums
in its configuration), so the grower's own defaults apply
(`gradient_boosting.py` lines 14-29 and 89-92). -/
theorem claim8_amended_grower_kwargs (cfg : GBMConfig) :
    fitTreeGrowerKwargs cfg =
      ⟨some cfg.n_bins, some cfg.max_leaf_nodes, some cfg.max_depth,
       some cfg.learning_rate, none, none, none, none⟩ :=
  rfl

/-- C9: when `fit` is called with `validation_split=None`, the matrix bound
to `X_binned_train` — the one handed to every `TreeGrower` and used for the
binned-prediction residual update — is the raw checked input `X` itself, not
the binned matrix produced by `BinMapper.fit_transform`; for every non-None
validation split it is the Fortran-ordered binned training subset
(`gradient_boosting.py` lines 50-58 and 89-97). -/
theorem claim9_train_matrix_raw_without_validation :
    fitXBinnedTrain none = NpExpr.input ∧
    (∀ v : ℚ, fitXBinnedTrain (some v) =
      NpExpr.asFortran (NpExpr.trainSplitTrain (NpExpr.fitTransform NpExpr.input))) ∧
    NpExpr.input ≠ NpExpr.fitTransform NpExpr.input :=
  ⟨rfl, fun _ => rfl, by decide⟩

theorem fitRounds_hessians (stop : Nat → Bool) (predictBinned : List ℚ → List ℚ) :
    ∀ (k : Nat) (grads : List ℚ),
      ∀ call ∈ fitRounds stop predictBinned k grads,
        call.hessians = ⟨DType.float32, [1]⟩ := by
  intro k
  induction k with
  | zero =>
    intro grads call hc
    simp [fitRounds] at hc
  | succ m ih =>
    intro grads call hc
    rw [fitRounds] at hc
    by_cases hs : stop m
    · rw [if_pos hs] at hc
      simp at hc
    · rw [if_neg hs] at hc
      rcases List.mem_cons.mp hc with rfl | hmem
      · rfl
      · exact ih _ call hmem

/-- C10: every call of `fit` runs every boosting round with the same shared
hessian array `np.ones(1, dtype=np.float32)` — a length-1 all-ones float32
array, independent of the configuration, of the stopping behavior, and of
the data — while the initial gradients are a float32 copy of the training
targets (`gradient_boosting.py` lines 72-73 and 89-92). -/
theorem claim10_constant_hessian_rounds :
    (∀ (stop : Nat → Bool) (predictBinned : List ℚ → List ℚ) (maxIter : Nat)
        (y : List ℚ),
      ∀ call ∈ fitRounds stop predictBinned maxIter (fitInitGradients y).data,
        call.hessians = ⟨DType.float32, [1]⟩) ∧
    (∀ y : List ℚ, fitInitGradients y = ⟨DType.float32, y⟩) ∧
    fitHessians = ⟨DType.float32, [1]⟩ :=
  ⟨fun stop predictBinned maxIter y =>
    fitRounds_hessians stop predictBinned maxIter (fitInitGradients y).data,
   fun _ => rfl, rfl⟩

/-- Witness for C10: in a one-round run on targets `[2]`, the single grower
call receives the length-1 all-ones float32 hessian array. -/
theorem claim10_witness :
    ((⟨⟨DType.float32, [2]⟩, fitHessians⟩ : GrowerCall) ∈
      fitRounds (fun _ => false) (fun g => g) 1 (fitInitGradients [2]).data) ∧
    (⟨⟨DType.float32, [2]⟩, fitHessians⟩ : GrowerCall).hessians =
      ⟨DType.float32, [1]⟩ := by
  have hmem : (⟨⟨DType.float32, [2]⟩, fitHessians⟩ : GrowerCall) ∈
      fitRounds (fun _ => false) (fun g => g) 1 (fitInitGradients [2]).data := by
    show (⟨⟨DType.float32, [2]⟩, fitHessians⟩ : GrowerCall) ∈
      [(⟨⟨DType.float32, [2]⟩, fitHessians⟩ : GrowerCall)]
    exact List.mem_singleton.mpr rfl
  exact ⟨hmem,
    claim10_constant_hessian_rounds.1 (fun _ => false) (fun g => g) 1 [2] _ hmem⟩

end GradientBoosting

namespace Pygbm

/-! ### Signed-split gain arithmetic -/

theorem sq_mul_of_sq_one (s x : ℚ) (hs : s ^ 2 = 1) : (x * s) ^ 2 = x ^ 2 := by
  rw [show (x * s) ^ 2 = x ^ 2 * s ^ 2 by ring, hs, mul_one]

theorem gain_left_closed (s a p q : ℚ) (hs : s ^ 2 = 1) (ha : a ≠ 0)
    (hd : p + q - a ≠ 0) (hpq : p + q ≠ 0) :
    gainOf 0 (a * -s) (a * 1) ((p * -s + q * s) - a * -s) ((p + q) * 1 - a * 1)
        (p * -s + q * s) ((p + q) * 1) =
      1 / 2 * (a + (q - p + a) ^ 2 / (p + q - a) - (q - p) ^ 2 / (p + q)) := by
  have e1 : (a * -s) ^ 2 = a ^ 2 := by
    rw [show a * -s = -a * s by ring, sq_mul_of_sq_one s (-a) hs]
    ring
  have e2 : ((p * -s + q * s) - a * -s) ^ 2 = (q - p + a) ^ 2 := by
    rw [show (p * -s + q * s) - a * -s = (q - p + a) * s by ring,
      sq_mul_of_sq_one s (q - p + a) hs]
  have e3 : (p * -s + q * s) ^ 2 = (q - p) ^ 2 := by
    rw [show p * -s + q * s = (q - p) * s by ring, sq_mul_of_sq_one s (q - p) hs]
  rw [gainOf, e1, e2, e3]
  rw [show a * 1 + 0 = a by ring, show (p + q) * 1 - a * 1 + 0 = p + q - a by ring,
    show (p + q) * 1 + 0 = p + q by ring]
  field_simp
  ring

theorem gain_right_closed (s u p q : ℚ) (hs : s ^ 2 = 1) (hu : u ≠ 0)
    (hd : p + q - u ≠ 0) (hpq : p + q ≠ 0) :
    gainOf 0 (p * -s + (u - p) * s) (u * 1)
        ((p * -s + q * s) - (p * -s + (u - p) * s)) ((p + q) * 1 - u * 1)
        (p * -s + q * s) ((p + q) * 1) =
      1 / 2 * ((u - 2 * p) ^ 2 / u + (p + q - u) - (q - p) ^ 2 / (p + q)) := by
  have e1 : (p * -s + (u - p) * s) ^ 2 = (u - 2 * p) ^ 2 := by
    rw [show p * -s + (u - p) * s = (u - 2 * p) * s by ring,
      sq_mul_of_sq_one s (u - 2 * p) hs]
  have e2 : ((p * -s + q * s) - (p * -s + (u - p) * s)) ^ 2 = (p + q - u) ^ 2 := by
    rw [show (p * -s + q * s) - (p * -s + (u - p) * s) = (p + q - u) * s by ring,
      sq_mul_of_sq_one s (p + q - u) hs]
  have e3 : (p * -s + q * s) ^ 2 = (q - p) ^ 2 := by
    rw [show p * -s + q * s = (q - p) * s by ring, sq_mul_of_sq_one s (q - p) hs]
  rw [gainOf, e1, e2, e3]
  rw [show u * 1 + 0 = u by ring, show (p + q) * 1 - u * 1 + 0 = p + q - u by ring,
    show (p + q) * 1 + 0 = p + q by ring]
  field_simp
  ring

theorem gain_left_inner_eq (p q a : ℚ) (hd : p + q - a ≠ 0) :
    a + (q - p + a) ^ 2 / (p + q - a) = p + q - 4 * q + 4 * q ^ 2 / (p + q - a) := by
  field_simp
  ring

theorem gain_right_inner_eq (p u : ℚ) (hu : u ≠ 0) :
    (u - 2 * p) ^ 2 / u = u - 4 * p + 4 * p ^ 2 / u := by
  field_simp
  ring

theorem c7_left_lt (s a p q : ℚ) (hs : s ^ 2 = 1) (ha : 1 ≤ a) (hap : a < p)
    (hq : 1 ≤ q) :
    gainOf 0 (a * -s) (a * 1) ((p * -s + q * s) - a * -s) ((p + q) * 1 - a * 1)
        (p * -s + q * s) ((p + q) * 1) <
      gainOf 0 (p * -s) (p * 1) ((p * -s + q * s) - p * -s) ((p + q) * 1 - p * 1)
        (p * -s + q * s) ((p + q) * 1) := by
  have ha0 : (0 : ℚ) < a := by linarith
  have hma : 0 < p + q - a := by linarith
  have hmp : 0 < p + q - p := by linarith
  have hpq : 0 < p + q := by linarith
  rw [gain_left_closed s a p q hs (by linarith) (by linarith) (by linarith)]
  have hgp : gainOf 0 (p * -s) (p * 1) ((p * -s + q * s) - p * -s)
      ((p + q) * 1 - p * 1) (p * -s + q * s) ((p + q) * 1) =
      1 / 2 * (p + (q - p + p) ^ 2 / (p + q - p) - (q - p) ^ 2 / (p + q)) :=
    gain_left_closed s p p q hs (by linarith) (by linarith) (by linarith)
  rw [hgp, gain_left_inner_eq p q a (by linarith), gain_left_inner_eq p q p (by linarith)]
  have hdiv : 4 * q ^ 2 / (p + q - a) < 4 * q ^ 2 / (p + q - p) := by
    apply div_lt_div_of_pos_left
    · nlinarith
    · exact hmp
    · linarith
  linarith

theorem c7_right_lt (s u p q : ℚ) (hs : s ^ 2 = 1) (hp : 1 ≤ p) (hpu : p < u)
    (hd : 0 < p + q - u) (hq : 1 ≤ q) :
    gainOf 0 (p * -s + (u - p) * s) (u * 1)
        ((p * -s + q * s) - (p * -s + (u - p) * s)) ((p + q) * 1 - u * 1)
        (p * -s + q * s) ((p + q) * 1) <
      gainOf 0 (p * -s) (p * 1) ((p * -s + q * s) - p * -s) ((p + q) * 1 - p * 1)
        (p * -s + q * s) ((p + q) * 1) := by
  have hu0 : (0 : ℚ) < u := by linarith
  rw [gain_right_closed s u p q hs (by linarith) (by linarith) (by linarith)]
  have hgp : gainOf 0 (p * -s) (p * 1) ((p * -s + q * s) - p * -s)
      ((p + q) * 1 - p * 1) (p * -s + q * s) ((p + q) * 1) =
      1 / 2 * (p + (q - p + p) ^ 2 / (p + q - p) - (q - p) ^ 2 / (p + q)) :=
    gain_left_closed s p p q hs (by linarith) (by linarith) (by linarith)
  rw [hgp, gain_left_inner_eq p q p (by linarith), gain_right_inner_eq p u (by linarith)]
  have hdiv : 4 * p ^ 2 / u < 4 * p := by
    rw [div_lt_iff₀ hu0]
    nlinarith
  have hq2 : 4 * q ^ 2 / (p + q - p) = 4 * q := by
    rw [show p + q - p = q by ring, sq, show 4 * (q * q) = (4 * q) * q by ring,
      mul_div_assoc, div_self (by linarith), mul_one]
  rw [hq2]
  linarith

theorem c7_t_gain_pos (s p q : ℚ) (hs : s ^ 2 = 1) (hp : 1 ≤ p) (hq : 1 ≤ q) :
    0 < gainOf 0 (p * -s) (p * 1) ((p * -s + q * s) - p * -s)
        ((p + q) * 1 - p * 1) (p * -s + q * s) ((p + q) * 1) := by
  have hpq : (0 : ℚ) < p + q := by linarith
  rw [gain_left_closed s p p q hs (by linarith) (by linarith) (by linarith),
    gain_left_inner_eq p q p (by linarith)]
  have hq2 : 4 * q ^ 2 / (p + q - p) = 4 * q := by
    rw [show p + q - p = q by ring, sq, show 4 * (q * q) = (4 * q) * q by ring,
      mul_div_assoc, div_self (by linarith), mul_one]
  rw [hq2]
  have hC : (q - p) ^ 2 / (p + q) < p + q := by
    rw [div_lt_iff₀ hpq]
    nlinarith
  linarith

end Pygbm

namespace Pygbm

/-! ### Index-to-value transfer for a single binned column -/

theorem filter_range_length (l : List Nat) (p : Nat → Bool) :
    ((List.range l.length).filter (fun i => p (l.getD i 0))).length =
      (l.filter p).length := by
  conv_rhs => rw [← range_map_getD l 0]
  rw [filter_map_comm, List.length_map]

theorem filter_range_map_sum (l : List Nat) (p : Nat → Bool) (G : Nat → ℚ) :
    (((List.range l.length).filter (fun i => p (l.getD i 0))).map
      (fun i => G (l.getD i 0))).sum = ((l.filter p).map G).sum := by
  conv_rhs => rw [← range_map_getD l 0]
  rw [filter_map_comm, List.map_map]
  rfl

theorem map_range_sum (l : List Nat) (G : Nat → ℚ) :
    ((List.range l.length).map (fun i => G (l.getD i 0))).sum = (l.map G).sum := by
  conv_rhs => rw [← range_map_getD l 0]
  rw [List.map_map]
  rfl

theorem filter_filter_of_imp (l : List α) (p q : α → Bool)
    (himp : ∀ a ∈ l, q a = true → p a = true) :
    (l.filter p).filter q = l.filter q := by
  induction l with
  | nil => rfl
  | cons a t ih =>
    have ht : ∀ x ∈ t, q x = true → p x = true :=
      fun x hx => himp x (List.mem_cons_of_mem a hx)
    by_cases hq : q a
    · have hp : p a = true := himp a (List.mem_cons_self a t) hq
      simp [List.filter_cons, hp, hq, ih ht]
    · by_cases hp : p a
      · simp [List.filter_cons, hp, hq, ih ht]
      · simp [List.filter_cons, hp, hq, ih ht]

end Pygbm

namespace Pygbm

/-- C7: for every bin count B with at least 3 bins, every true bin t with
1 <= t <= B - 2 and every sign s in {-1, +1}, when the gradients are -s exactly
on the samples whose bin is <= t and s otherwise, with constant hessian 1
(and the true bin and its successor occupied, as in the test data), the
histogram split search on that feature returns bin t, a nonnegative gain,
and left plus right sample counts equal to the number of samples. -/
theorem claim7_signed_split_found (bins : List Nat) (B t : Nat) (s minH : ℚ) (par : Bool)
    (ht1 : 1 ≤ t) (ht2 : t + 2 ≤ B) (hs : s = 1 ∨ s = -1) (hminH : minH ≤ 1)
    (hv : ∀ v ∈ bins, v < B) (htin : t ∈ bins) (ht1in : t + 1 ∈ bins) :
    (find_histogram_split
        ⟨[bins], B, [B], bins.map (fun v => if v ≤ t then -s else s),
         Hessians.constant 1, 0, minH, 1, 0, par⟩
        0 (List.range bins.length)).1.binIdx = t ∧
    0 ≤ (find_histogram_split
        ⟨[bins], B, [B], bins.map (fun v => if v ≤ t then -s else s),
         Hessians.constant 1, 0, minH, 1, 0, par⟩
        0 (List.range bins.length)).1.gain ∧
    (find_histogram_split
        ⟨[bins], B, [B], bins.map (fun v => if v ≤ t then -s else s),
         Hessians.constant 1, 0, minH, 1, 0, par⟩
        0 (List.range bins.length)).1.nSamplesLeft +
      (find_histogram_split
        ⟨[bins], B, [B], bins.map (fun v => if v ≤ t then -s else s),
         Hessians.constant 1, 0, minH, 1, 0, par⟩
        0 (List.range bins.length)).1.nSamplesRight = bins.length := by
  set ctx : SplittingContext :=
    ⟨[bins], B, [B], bins.map (fun v => if v ≤ t then -s else s),
     Hessians.constant 1, 0, minH, 1, 0, par⟩ with hctx
  have hs2 : s ^ 2 = 1 := by rcases hs with rfl | rfl <;> norm_num
  have hctxv : ctxValid ctx := by
    constructor
    · show 0 < B
      omega
    · intro col hcol v hvv
      have : col = bins := List.mem_singleton.mp hcol
      subst this
      exact hv v hvv
  have hvi : ∀ i ∈ List.range bins.length, binOf ctx 0 i < ctx.n_bins :=
    fun i _ => binOf_lt ctx hctxv 0 i
  -- characterization of the prefix at every boundary bin
  have hchar : ∀ b : Nat,
      prefixStats (buildHistogram ctx 0 (List.range bins.length)) b =
        ⟨(bins.filter (fun v => decide (v < b + 1))).length,
         ((bins.filter (fun v => decide (v < b + 1))).map
           (fun v => if v ≤ t then -s else s)).sum, 0⟩ := by
    intro b
    rw [prefixStats,
      sumEntries_take_buildHistogram ctx 0 (List.range bins.length) (b + 1) hvi]
    simp only [HistEntry.mk.injEq]
    refine ⟨?_, ?_, ?_⟩
    · exact filter_range_length bins (fun v => decide (v < b + 1))
    · have hconv : ∀ i ∈ (List.range bins.length).filter
          (fun i => decide (binOf ctx 0 i < b + 1)),
          gradOf ctx i = (fun v => if v ≤ t then -s else s) (bins.getD i 0) := by
        intro i hi
        have hin : i < bins.length :=
          List.mem_range.mp (List.mem_filter.mp hi).1
        show ctx.allGradients.getD i 0 = _
        exact getD_map_lt bins (fun v => if v ≤ t then -s else s) i 0 0 hin
      rw [List.map_congr_left hconv]
      exact filter_range_map_sum bins (fun v => decide (v < b + 1))
        (fun v => if v ≤ t then -s else s)
    · have h0 : ∀ i ∈ (List.range bins.length).filter
          (fun i => decide (binOf ctx 0 i < b + 1)), histHessOf ctx i = 0 := by
        intro i _
        rfl
      rw [sum_map_const_on _ _ 0 h0, mul_zero]
  -- totals characterization
  have hgradAll : ∀ i ∈ List.range bins.length,
      gradOf ctx i = (fun v => if v ≤ t then -s else s) (bins.getD i 0) := by
    intro i hi
    show ctx.allGradients.getD i 0 = _
    exact getD_map_lt bins (fun v => if v ≤ t then -s else s) i 0 0 (List.mem_range.mp hi)
  have hft : ∀ v ∈ bins.filter (fun v => decide (v < t + 1)),
      (fun v => if v ≤ t then -s else s) v = -s := by
    intro v hv'
    have : v < t + 1 := by simpa using (List.mem_filter.mp hv').2
    simp only []
    rw [if_pos (by omega : v ≤ t)]
  have hnft : ∀ v ∈ bins.filter (fun v => !decide (v < t + 1)),
      (fun v => if v ≤ t then -s else s) v = s := by
    intro v hv'
    have : ¬ (v < t + 1) := by simpa using (List.mem_filter.mp hv').2
    simp only []
    rw [if_neg (by omega : ¬ v ≤ t)]
  have htot : nodeTotals ctx (List.range bins.length) =
      ⟨bins.length,
       ((bins.filter (fun v => decide (v < t + 1))).length : ℚ) * -s +
         ((bins.filter (fun v => !decide (v < t + 1))).length : ℚ) * s,
       (bins.length : ℚ) * 1⟩ := by
    show (⟨(List.range bins.length).length,
           ((List.range bins.length).map (gradOf ctx)).sum,
           ((List.range bins.length).length : ℚ) * 1⟩ : HistEntry) = _
    simp only [HistEntry.mk.injEq, List.length_range]
    refine ⟨by trivial, ?_, by trivial⟩
    rw [List.map_congr_left hgradAll,
      map_range_sum bins (fun v => if v ≤ t then -s else s),
      sum_filter_split bins (fun v => decide (v < t + 1))
        (fun v => if v ≤ t then -s else s),
      sum_map_const_on _ _ (-s) hft, sum_map_const_on _ _ s hnft]
  -- basic counting facts
  have hPpos : 0 < (bins.filter (fun v => decide (v < t + 1))).length :=
    length_filter_pos bins _ t htin (by simp)
  have hQpos : 0 < (bins.filter (fun v => !decide (v < t + 1))).length :=
    length_filter_pos bins _ (t + 1) ht1in (by simp)
  have hPQ : (bins.filter (fun v => decide (v < t + 1))).length +
      (bins.filter (fun v => !decide (v < t + 1))).length = bins.length :=
    length_filter_split bins _
  have hp1 : (1 : ℚ) ≤ ((bins.filter (fun v => decide (v < t + 1))).length : ℚ) := by
    exact_mod_cast hPpos
  have hq1 : (1 : ℚ) ≤ ((bins.filter (fun v => !decide (v < t + 1))).length : ℚ) := by
    exact_mod_cast hQpos
  have hpq_cast : ((bins.filter (fun v => decide (v < t + 1))).length : ℚ) +
      ((bins.filter (fun v => !decide (v < t + 1))).length : ℚ) = (bins.length : ℚ) := by
    exact_mod_cast hPQ
  -- the boundary candidate at bin t is admissible
  have hchart := hchar t
  have hlhT : leftHess ctx (prefixStats (buildHistogram ctx 0 (List.range bins.length)) t) =
      ((bins.filter (fun v => decide (v < t + 1))).length : ℚ) * 1 := by
    rw [hchart]
    rfl
  have hcondT : ¬ (leftHess ctx (prefixStats (buildHistogram ctx 0 (List.range bins.length)) t) <
        ctx.minHessianToSplit ∨
      (nodeTotals ctx (List.range bins.length)).sumHessians -
        leftHess ctx (prefixStats (buildHistogram ctx 0 (List.range bins.length)) t) <
        ctx.minHessianToSplit ∨
      (prefixStats (buildHistogram ctx 0 (List.range bins.length)) t).count <
        ctx.minSamplesLeaf ∨
      (nodeTotals ctx (List.range bins.length)).count -
        (prefixStats (buildHistogram ctx 0 (List.range bins.length)) t).count <
        ctx.minSamplesLeaf) := by
    have hmh : ctx.minHessianToSplit = minH := rfl
    have hmsl : ctx.minSamplesLeaf = 1 := rfl
    have hTh : (nodeTotals ctx (List.range bins.length)).sumHessians =
        (bins.length : ℚ) * 1 := by rw [htot]
    have hTc : (nodeTotals ctx (List.range bins.length)).count = bins.length := by
      rw [htot]
    have hpc : (prefixStats (buildHistogram ctx 0 (List.range bins.length)) t).count =
        (bins.filter (fun v => decide (v < t + 1))).length := by rw [hchart]
    intro hor
    rcases hor with h1 | h2 | h3 | h4
    · rw [hlhT, hmh] at h1
      linarith
    · rw [hlhT, hTh, hmh] at h2
      have hc : ((bins.filter (fun v => decide (v < t + 1))).length : ℚ) + 1 ≤
          (bins.length : ℚ) := by linarith [hpq_cast, hq1]
      linarith
    · rw [hpc, hmsl] at h3
      omega
    · rw [hpc, hTc, hmsl] at h4
      omega
  have hacc := candidateAt_accept ctx (buildHistogram ctx 0 (List.range bins.length))
    (nodeTotals ctx (List.range bins.length)) t hcondT
  -- strict counting around the true bin
  have hcntlt : ∀ b, b < t → (bins.filter (fun v => decide (v < b + 1))).length <
      (bins.filter (fun v => decide (v < t + 1))).length := by
    intro b hb
    apply length_filter_lt bins _ _ t
    · intro a _ ha
      simp only [decide_eq_true_eq] at ha ⊢
      omega
    · exact htin
    · simp
    · simp only [decide_eq_false_iff_not]
      omega
  have hcntgt : ∀ b, t < b → (bins.filter (fun v => decide (v < t + 1))).length <
      (bins.filter (fun v => decide (v < b + 1))).length := by
    intro b hb
    apply length_filter_lt bins _ _ (t + 1)
    · intro a _ ha
      simp only [decide_eq_true_eq] at ha ⊢
      omega
    · exact ht1in
    · simp only [decide_eq_true_eq]
      omega
    · simp
  -- left-side gradient sums
  have hSle : ∀ b, b ≤ t →
      ((bins.filter (fun v => decide (v < b + 1))).map
        (fun v => if v ≤ t then -s else s)).sum =
        ((bins.filter (fun v => decide (v < b + 1))).length : ℚ) * -s := by
    intro b hb
    apply sum_map_const_on
    intro v hv'
    have hvb : v < b + 1 := by simpa using (List.mem_filter.mp hv').2
    show (if v ≤ t then -s else s) = -s
    rw [if_pos (by omega : v ≤ t)]
  have hSgt : ∀ b, t < b →
      ((bins.filter (fun v => decide (v < b + 1))).map
        (fun v => if v ≤ t then -s else s)).sum =
        ((bins.filter (fun v => decide (v < t + 1))).length : ℚ) * -s +
          (((bins.filter (fun v => decide (v < b + 1))).length : ℚ) -
            ((bins.filter (fun v => decide (v < t + 1))).length : ℚ)) * s := by
    intro b hb
    rw [sum_filter_split (bins.filter (fun v => decide (v < b + 1)))
      (fun v => decide (v < t + 1)) (fun v => if v ≤ t then -s else s)]
    have hff : (bins.filter (fun v => decide (v < b + 1))).filter
        (fun v => decide (v < t + 1)) = bins.filter (fun v => decide (v < t + 1)) :=
      filter_filter_of_imp bins _ _ (fun a _ ha => by
        simp only [decide_eq_true_eq] at ha ⊢
        omega)
    rw [hff, sum_map_const_on _ _ (-s) hft]
    have hsecond : ∀ v ∈ (bins.filter (fun v => decide (v < b + 1))).filter
        (fun v => !decide (v < t + 1)), (fun v => if v ≤ t then -s else s) v = s := by
      intro v hv'
      have : ¬ (v < t + 1) := by simpa using (List.mem_filter.mp hv').2
      show (if v ≤ t then -s else s) = s
      rw [if_neg (by omega : ¬ v ≤ t)]
    rw [sum_map_const_on _ _ s hsecond]
    have hsplit' := length_filter_split (bins.filter (fun v => decide (v < b + 1)))
      (fun v => decide (v < t + 1))
    rw [hff] at hsplit'
    have hcast2 : (((bins.filter (fun v => decide (v < b + 1))).filter
        (fun v => !decide (v < t + 1))).length : ℚ) =
        ((bins.filter (fun v => decide (v < b + 1))).length : ℚ) -
          ((bins.filter (fun v => decide (v < t + 1))).length : ℚ) := by
      have hc := congrArg (fun k : Nat => (k : ℚ)) hsplit'
      push_cast at hc
      linarith
    rw [hcast2]
  -- name the admissible candidate at bin t
  obtain ⟨ctT, haccT⟩ : ∃ c, candidateAt ctx (buildHistogram ctx 0 (List.range bins.length)) (nodeTotals ctx (List.range bins.length)) t = some c := ⟨_, hacc⟩
  obtain ⟨hctT_eq, -⟩ := candidateAt_some ctx _ _ t ctT haccT
  have hl2 : ctx.l2Regularization = 0 := rfl
  have hSgT : (prefixStats (buildHistogram ctx 0 (List.range bins.length)) t).sumGradients = ((bins.filter (fun v => decide (v < t + 1))).length : ℚ) * -s := by
    rw [hchart]
    exact hSle t (le_refl t)
  have hTgv : (nodeTotals ctx (List.range bins.length)).sumGradients = ((bins.filter (fun v => decide (v < t + 1))).length : ℚ) * -s + ((bins.filter (fun v => !decide (v < t + 1))).length : ℚ) * s := by rw [htot]
  have hThv : (nodeTotals ctx (List.range bins.length)).sumHessians = (bins.length : ℚ) * 1 := by rw [htot]
  have hTc : (nodeTotals ctx (List.range bins.length)).count = bins.length := by rw [htot]
  have hTbin : ctT.binIdx = t := by rw [hctT_eq]
  have hTgain : ctT.gain = gainOf 0 (((bins.filter (fun v => decide (v < t + 1))).length : ℚ) * -s) (((bins.filter (fun v => decide (v < t + 1))).length : ℚ) * 1) ((((bins.filter (fun v => decide (v < t + 1))).length : ℚ) * -s + ((bins.filter (fun v => !decide (v < t + 1))).length : ℚ) * s) - ((bins.filter (fun v => decide (v < t + 1))).length : ℚ) * -s) ((((bins.filter (fun v => decide (v < t + 1))).length : ℚ) + ((bins.filter (fun v => !decide (v < t + 1))).length : ℚ)) * 1 - ((bins.filter (fun v => decide (v < t + 1))).length : ℚ) * 1) (((bins.filter (fun v => decide (v < t + 1))).length : ℚ) * -s + ((bins.filter (fun v => !decide (v < t + 1))).length : ℚ) * s) ((((bins.filter (fun v => decide (v < t + 1))).length : ℚ) + ((bins.filter (fun v => !decide (v < t + 1))).length : ℚ)) * 1) := by
    rw [hctT_eq]
    show gainOf ctx.l2Regularization (prefixStats (buildHistogram ctx 0 (List.range bins.length)) t).sumGradients (leftHess ctx (prefixStats (buildHistogram ctx 0 (List.range bins.length)) t)) ((nodeTotals ctx (List.range bins.length)).sumGradients - (prefixStats (buildHistogram ctx 0 (List.range bins.length)) t).sumGradients) ((nodeTotals ctx (List.range bins.length)).sumHessians - leftHess ctx (prefixStats (buildHistogram ctx 0 (List.range bins.length)) t)) (nodeTotals ctx (List.range bins.length)).sumGradients (nodeTotals ctx (List.range bins.length)).sumHessians = _
    rw [hl2, hSgT, hlhT, hTgv, hThv, ← hpq_cast]
  have hmemT : ctT ∈ featureCandidates ctx 0 (buildHistogram ctx 0 (List.range bins.length)) (nodeTotals ctx (List.range bins.length)) := by
    rw [featureCandidates]
    apply List.mem_filterMap.mpr
    refine ⟨t, ?_, haccT⟩
    apply List.mem_range.mpr
    show t < ctx.n_bins_per_feature.getD 0 ctx.n_bins - 1
    have hB : ctx.n_bins_per_feature.getD 0 ctx.n_bins = B := rfl
    rw [hB]
    omega
  have hmax : ∀ c ∈ featureCandidates ctx 0 (buildHistogram ctx 0 (List.range bins.length)) (nodeTotals ctx (List.range bins.length)), c = ctT ∨ SplitCandidate.gain c < SplitCandidate.gain ctT := by
    intro c hcmem
    rw [featureCandidates] at hcmem
    rcases List.mem_filterMap.mp hcmem with ⟨b, hbmem, hcb⟩
    by_cases hbt : b = t
    · subst hbt
      left
      exact (Option.some_injective _ (haccT.symm.trans hcb)).symm
    · right
      obtain ⟨hc_eq, hrej⟩ := candidateAt_some ctx _ _ b c hcb
      push_neg at hrej
      obtain ⟨-, -, hrej3, hrej4⟩ := hrej
      have hmsl : ctx.minSamplesLeaf = 1 := rfl
      rw [hmsl] at hrej3 hrej4
      have hcharb := hchar b
      have hbcount : (prefixStats (buildHistogram ctx 0 (List.range bins.length)) b).count = (bins.filter (fun v => decide (v < b + 1))).length := by rw [hcharb]
      rw [hbcount] at hrej3
      rw [hTc, hbcount] at hrej4
      have hA1 : 1 ≤ (bins.filter (fun v => decide (v < b + 1))).length := hrej3
      have hAn : (bins.filter (fun v => decide (v < b + 1))).length + 1 ≤ bins.length := by
        omega
      have hlhb : leftHess ctx (prefixStats (buildHistogram ctx 0 (List.range bins.length)) b) = ((bins.filter (fun v => decide (v < b + 1))).length : ℚ) * 1 := by
        rw [hcharb]
        rfl
      rcases Nat.lt_or_ge b t with hblt | hbge
      · have hSgb : (prefixStats (buildHistogram ctx 0 (List.range bins.length)) b).sumGradients = ((bins.filter (fun v => decide (v < b + 1))).length : ℚ) * -s := by
          rw [hcharb]
          exact hSle b (by omega)
        have hgainb : SplitCandidate.gain c = gainOf 0 (((bins.filter (fun v => decide (v < b + 1))).length : ℚ) * -s) (((bins.filter (fun v => decide (v < b + 1))).length : ℚ) * 1) ((((bins.filter (fun v => decide (v < t + 1))).length : ℚ) * -s + ((bins.filter (fun v => !decide (v < t + 1))).length : ℚ) * s) - ((bins.filter (fun v => decide (v < b + 1))).length : ℚ) * -s) ((((bins.filter (fun v => decide (v < t + 1))).length : ℚ) + ((bins.filter (fun v => !decide (v < t + 1))).length : ℚ)) * 1 - ((bins.filter (fun v => decide (v < b + 1))).length : ℚ) * 1) (((bins.filter (fun v => decide (v < t + 1))).length : ℚ) * -s + ((bins.filter (fun v => !decide (v < t + 1))).length : ℚ) * s) ((((bins.filter (fun v => decide (v < t + 1))).length : ℚ) + ((bins.filter (fun v => !decide (v < t + 1))).length : ℚ)) * 1) := by
          rw [hc_eq]
          show gainOf ctx.l2Regularization (prefixStats (buildHistogram ctx 0 (List.range bins.length)) b).sumGradients (leftHess ctx (prefixStats (buildHistogram ctx 0 (List.range bins.length)) b)) ((nodeTotals ctx (List.range bins.length)).sumGradients - (prefixStats (buildHistogram ctx 0 (List.range bins.length)) b).sumGradients) ((nodeTotals ctx (List.range bins.length)).sumHessians - leftHess ctx (prefixStats (buildHistogram ctx 0 (List.range bins.length)) b)) (nodeTotals ctx (List.range bins.length)).sumGradients (nodeTotals ctx (List.range bins.length)).sumHessians = _
          rw [hl2, hSgb, hlhb, hTgv, hThv, ← hpq_cast]
        rw [hgainb, hTgain]
        exact c7_left_lt s ((bins.filter (fun v => decide (v < b + 1))).length : ℚ) ((bins.filter (fun v => decide (v < t + 1))).length : ℚ) ((bins.filter (fun v => !decide (v < t + 1))).length : ℚ) hs2 (by exact_mod_cast hA1) (by exact_mod_cast hcntlt b hblt) hq1
      · have hbgt : t < b := by omega
        have hSgb : (prefixStats (buildHistogram ctx 0 (List.range bins.length)) b).sumGradients = ((bins.filter (fun v => decide (v < t + 1))).length : ℚ) * -s + (((bins.filter (fun v => decide (v < b + 1))).length : ℚ) - ((bins.filter (fun v => decide (v < t + 1))).length : ℚ)) * s := by
          rw [hcharb]
          exact hSgt b hbgt
        have hgainb : SplitCandidate.gain c = gainOf 0 (((bins.filter (fun v => decide (v < t + 1))).length : ℚ) * -s + (((bins.filter (fun v => decide (v < b + 1))).length : ℚ) - ((bins.filter (fun v => decide (v < t + 1))).length : ℚ)) * s) (((bins.filter (fun v => decide (v < b + 1))).length : ℚ) * 1) ((((bins.filter (fun v => decide (v < t + 1))).length : ℚ) * -s + ((bins.filter (fun v => !decide (v < t + 1))).length : ℚ) * s) - (((bins.filter (fun v => decide (v < t + 1))).length : ℚ) * -s + (((bins.filter (fun v => decide (v < b + 1))).length : ℚ) - ((bins.filter (fun v => decide (v < t + 1))).length : ℚ)) * s)) ((((bins.filter (fun v => decide (v < t + 1))).length : ℚ) + ((bins.filter (fun v => !decide (v < t + 1))).length : ℚ)) * 1 - ((bins.filter (fun v => decide (v < b + 1))).length : ℚ) * 1) (((bins.filter (fun v => decide (v < t + 1))).length : ℚ) * -s + ((bins.filter (fun v => !decide (v < t + 1))).length : ℚ) * s) ((((bins.filter (fun v => decide (v < t + 1))).length : ℚ) + ((bins.filter (fun v => !decide (v < t + 1))).length : ℚ)) * 1) := by
          rw [hc_eq]
          show gainOf ctx.l2Regularization (prefixStats (buildHistogram ctx 0 (List.range bins.length)) b).sumGradients (leftHess ctx (prefixStats (buildHistogram ctx 0 (List.range bins.length)) b)) ((nodeTotals ctx (List.range bins.length)).sumGradients - (prefixStats (buildHistogram ctx 0 (List.range bins.length)) b).sumGradients) ((nodeTotals ctx (List.range bins.length)).sumHessians - leftHess ctx (prefixStats (buildHistogram ctx 0 (List.range bins.length)) b)) (nodeTotals ctx (List.range bins.length)).sumGradients (nodeTotals ctx (List.range bins.length)).sumHessians = _
          rw [hl2, hSgb, hlhb, hTgv, hThv, ← hpq_cast]
        have hd : 0 < ((bins.filter (fun v => decide (v < t + 1))).length : ℚ) + ((bins.filter (fun v => !decide (v < t + 1))).length : ℚ) - ((bins.filter (fun v => decide (v < b + 1))).length : ℚ) := by
          have hcast : ((bins.filter (fun v => decide (v < b + 1))).length : ℚ) + 1 ≤ (bins.length : ℚ) := by exact_mod_cast hAn
          linarith [hpq_cast]
        rw [hgainb, hTgain]
        exact c7_right_lt s ((bins.filter (fun v => decide (v < b + 1))).length : ℚ) ((bins.filter (fun v => decide (v < t + 1))).length : ℚ) ((bins.filter (fun v => !decide (v < t + 1))).length : ℚ) hs2 hp1 (by exact_mod_cast hcntgt b hbgt) hd hq1
  have hfirst : firstArgmax SplitCandidate.gain (featureCandidates ctx 0 (buildHistogram ctx 0 (List.range bins.length)) (nodeTotals ctx (List.range bins.length))) = some ctT := firstArgmax_unique_max _ _ ctT hmemT hmax
  have hpos : 0 < ctT.gain := by
    rw [hTgain]
    exact c7_t_gain_pos s ((bins.filter (fun v => decide (v < t + 1))).length : ℚ) ((bins.filter (fun v => !decide (v < t + 1))).length : ℚ) hs2 hp1 hq1
  have hres : (find_histogram_split ctx 0 (List.range bins.length)).1 = ⟨ctT.gain, 0, ctT.binIdx, ctT.gradLeft, ctT.gradRight, ctT.hessLeft, ctT.hessRight, ctT.nLeft, ctT.nRight⟩ := by
    show findHistogramSplitFromHist ctx 0 (buildHistogram ctx 0 (List.range bins.length)) (nodeTotals ctx (List.range bins.length)) = _
    simp only [findHistogramSplitFromHist, hfirst]
    have hmg : ctx.minGainToSplit = 0 := rfl
    rw [if_neg (by first | exact not_le.mpr hpos | (rw [hmg]; exact not_le.mpr hpos))]
  rw [hres]
  refine ⟨hTbin, le_of_lt hpos, ?_⟩
  show ctT.nLeft + ctT.nRight = bins.length
  have hnl : ctT.nLeft = (bins.filter (fun v => decide (v < t + 1))).length := by
    rw [hctT_eq]
    show (prefixStats (buildHistogram ctx 0 (List.range bins.length)) t).count = _
    rw [hchart]
  have hnr : ctT.nRight = bins.length - (bins.filter (fun v => decide (v < t + 1))).length := by
    rw [hctT_eq]
    show (nodeTotals ctx (List.range bins.length)).count - (prefixStats (buildHistogram ctx 0 (List.range bins.length)) t).count = _
    rw [hTc, hchart]
  rw [hnl, hnr]
  omega




end Pygbm

namespace Pygbm

theorem claim7_witness :
    ((1 ≤ 1 ∧ 1 + 2 ≤ 3) ∧ ((1:ℚ) = 1 ∨ (1:ℚ) = -1) ∧ (1:ℚ) ≤ 1 ∧
      (∀ v ∈ ([0,1,2] : List Nat), v < 3) ∧ 1 ∈ ([0,1,2] : List Nat) ∧
      1 + 1 ∈ ([0,1,2] : List Nat)) ∧
    ((find_histogram_split
        ⟨[([0,1,2] : List Nat)], 3, [3],
         ([0,1,2] : List Nat).map (fun v => if v ≤ 1 then -(1:ℚ) else (1:ℚ)),
         Hessians.constant 1, 0, 1, 1, 0, true⟩
        0 (List.range ([0,1,2] : List Nat).length)).1.binIdx = 1 ∧
     0 ≤ (find_histogram_split
        ⟨[([0,1,2] : List Nat)], 3, [3],
         ([0,1,2] : List Nat).map (fun v => if v ≤ 1 then -(1:ℚ) else (1:ℚ)),
         Hessians.constant 1, 0, 1, 1, 0, true⟩
        0 (List.range ([0,1,2] : List Nat).length)).1.gain ∧
     (find_histogram_split
        ⟨[([0,1,2] : List Nat)], 3, [3],
         ([0,1,2] : List Nat).map (fun v => if v ≤ 1 then -(1:ℚ) else (1:ℚ)),
         Hessians.constant 1, 0, 1, 1, 0, true⟩
        0 (List.range ([0,1,2] : List Nat).length)).1.nSamplesLeft +
      (find_histogram_split
        ⟨[([0,1,2] : List Nat)], 3, [3],
         ([0,1,2] : List Nat).map (fun v => if v ≤ 1 then -(1:ℚ) else (1:ℚ)),
         Hessians.constant 1, 0, 1, 1, 0, true⟩
        0 (List.range ([0,1,2] : List Nat).length)).1.nSamplesRight =
        ([0,1,2] : List Nat).length) :=
  ⟨⟨⟨by decide, by decide⟩, Or.inl rfl, le_refl 1, by decide, by decide, by decide⟩,
   claim7_signed_split_found ([0,1,2] : List Nat) 3 1 1 1 true (by decide) (by decide)
     (Or.inl rfl) (le_refl 1) (by decide) (by decide) (by decide)⟩

end Pygbm
